import Mathlib

/-
Verification of the `SingleLinkedList<Type>` container of
src/single-linked-list/single-linked-list.h.

The C++ code is embedded shallowly:
  - machine pointers become `Option Nat` addresses (`none` models `nullptr`);
  - the heap becomes an explicit association table from addresses to nodes,
    threaded through every operation;
  - an operation whose C++ execution dereferences an invalid pointer
    (null or freed) has result type `Option _` and returns `none` on that
    path; `none` marks undefined behaviour, not a defined error value;
  - `size_` (a `size_t`) is modelled as `Nat`; the only decrements occur on
    paths whose preconditions force `size_ ≥ 1`, where `Nat` subtraction
    agrees with `size_t` subtraction;
  - the C++ loops of `end()`, `Clear()`, `std::equal`,
    `std::lexicographical_compare` and the copy loop become structural
    recursions; where the C++ loop is not structurally bounded (`Clear`,
    the comparison algorithms) an explicit fuel argument is added and the
    theorems show the exact fuel needed.
-/

set_option maxRecDepth 8000

namespace SLLModel

/-- Node of the singly linked list: a stored value and a raw pointer to the
successor node (`none` models `nullptr`).  Mirrors the private struct
`SingleLinkedList<Type>::Node` with fields `value` and `next_node`. -/
structure Node (α : Type) where
  value : α
  next_node : Option Nat
deriving DecidableEq

/-- An iterator is a raw node pointer, mirroring the single private field
`BasicIterator::node_`: `none` models `nullptr` (the default-constructed and
past-the-end position), `some a` a pointer to the node at address `a`. -/
abbrev Iter : Type := Option Nat

/-- Explicit heap: an association table from addresses to live nodes plus the
next never-used address.  A lookup of a freed or never-allocated address
fails, which models dereferencing an invalid pointer. -/
structure Heap (α : Type) where
  tbl : List (Nat × Node α)
  next : Nat
deriving DecidableEq

namespace Heap

/-- Lookup in the raw association table (first binding wins). -/
def lookupTbl (a : Nat) : List (Nat × Node α) → Option (Node α)
  | [] => none
  | c :: rest => if c.1 = a then some c.2 else lookupTbl a rest

/-- Read the node at address `a`, or `none` if `a` is not live. -/
def lookup (m : Heap α) (a : Nat) : Option (Node α) :=
  lookupTbl a m.tbl

/-- Allocate a fresh node (models `new Node(...)`), returning its address. -/
def alloc (m : Heap α) (nd : Node α) : Nat × Heap α :=
  (m.next, ⟨(m.next, nd) :: m.tbl, m.next + 1⟩)

/-- Overwrite the node at address `a` (models an assignment through a
pointer).  The new binding shadows the old one. -/
def write (m : Heap α) (a : Nat) (nd : Node α) : Heap α :=
  ⟨(a, nd) :: m.tbl, m.next⟩

/-- Deallocate the node at address `a` (models `delete`). -/
def free (m : Heap α) (a : Nat) : Heap α :=
  ⟨m.tbl.filter (fun c => c.1 ≠ a), m.next⟩

/-- Well-formed heap: every live address is below the fresh-address bound. -/
def good (m : Heap α) : Bool :=
  m.tbl.all (fun c => c.1 < m.next)

/-- The empty heap. -/
def empty : Heap α := ⟨[], 0⟩

end Heap

/-- Default-constructed iterator: `BasicIterator() = default` leaves
`node_ = nullptr`. -/
def defaultIter : Iter := none

/-- Embedding of `BasicIterator::operator++` (pre-increment, and the body of
the post-increment): `node_ = node_->next_node;`.  There is no check: when
`node_` is null (`none`) or dangling the C++ code dereferences an invalid
pointer, modelled by the `none` result (undefined behaviour, not a defined
error). -/
def iterInc (m : Heap α) (it : Iter) : Option Iter :=
  match it with
  | none => none
  | some a => (m.lookup a).map (fun nd => nd.next_node)

/-- Embedding of `BasicIterator::operator*`: `return (this->node_->value);`.
Again no check is performed by the C++ code; the `none` result marks the
invalid-pointer dereference (undefined behaviour). -/
def iterDeref (m : Heap α) (it : Iter) : Option α :=
  match it with
  | none => none
  | some a => (m.lookup a).map (fun nd => nd.value)

/-- Embedding of `BasicIterator::operator==`: raw pointer comparison
`this->node_ == rhs.node_`. -/
def iterEq (it₁ it₂ : Iter) : Bool := decide (it₁ = it₂)

/-- Embedding of `std::next(it, k)`: `k` successive pre-increments. -/
def advance (m : Heap α) (it : Iter) : Nat → Option Iter
  | 0 => some it
  | k + 1 =>
    match iterInc m it with
    | none => none
    | some it₂ => advance m it₂ k

/-- The list object `SingleLinkedList<Type>`: the address of its embedded
sentinel node `head_` (the object needs an address because `before_begin()`
hands out `&head_` and `InsertAfter`/`EraseAfter` write through it) and the
element count `size_`. -/
structure SLL where
  headAddr : Nat
  size_ : Nat
deriving DecidableEq

namespace SLL

/-- Read `head_.next_node`.  The sentinel is part of the list object, so in
any state produced by the embedded constructors its lookup succeeds; the
`none` fallback is unreachable there. -/
def headNext (m : Heap α) (L : SLL) : Iter :=
  match m.lookup L.headAddr with
  | some nd => nd.next_node
  | none => none

/-- Write `head_.next_node := x`, preserving the sentinel's (never used)
value slot. -/
def writeHeadNext (m : Heap α) (L : SLL) (x : Iter) : Heap α :=
  match m.lookup L.headAddr with
  | some nd => m.write L.headAddr ⟨nd.value, x⟩
  | none => m

/-- Embedding of `GetSize()`: `return size_;`. -/
def GetSize (L : SLL) : Nat := L.size_

/-- Embedding of `IsEmpty()`: `return size_ ? false : true;`. -/
def IsEmpty (L : SLL) : Bool := if L.size_ ≠ 0 then false else true

/-- Embedding of `before_begin()`: an iterator holding `&head_`. -/
def before_begin (L : SLL) : Iter := some L.headAddr

/-- The loop of `end()`: starting from `temp_addr = head_.next_node`, run
`size_` iterations of `temp_addr = temp_addr->next_node`.  Dereferencing a
null or dangling `temp_addr` is undefined behaviour (`none`). -/
def endWalk (m : Heap α) (a : Iter) : Nat → Option Iter
  | 0 => some a
  | k + 1 =>
    match a with
    | none => none
    | some addr =>
      match m.lookup addr with
      | none => none
      | some nd => endWalk m nd.next_node k

/-- Instrumented copy of `endWalk` that additionally counts how many
successor links the loop of `end()` follows. -/
def endWalkCount (m : Heap α) (a : Iter) : Nat → Option Iter × Nat
  | 0 => (some a, 0)
  | k + 1 =>
    match a with
    | none => (none, 0)
    | some addr =>
      match m.lookup addr with
      | none => (none, 0)
      | some nd =>
        let r := endWalkCount m nd.next_node k
        (r.1, r.2 + 1)

/-- Embedding of `end()` / `end() const` / `cend()` (their bodies are
identical): walk `size_` successor links from `head_.next_node` and return
an iterator at the address reached.  (`end` is a Lean keyword, hence the
name `endIter`.) -/
def endIter (m : Heap α) (L : SLL) : Option Iter :=
  endWalk m (headNext m L) L.size_

/-- Number of successor links the loop of `end()` follows. -/
def endSteps (m : Heap α) (L : SLL) : Nat :=
  (endWalkCount m (headNext m L) L.size_).2

/-- Embedding of `begin()` / `begin() const` / `cbegin()`: if `size_` is
nonzero, an iterator at `head_.next_node`, otherwise the result of
`end()`. -/
def beginIter (m : Heap α) (L : SLL) : Option Iter :=
  if L.size_ ≠ 0 then some (headNext m L) else endIter m L

/-- Embedding of `PushFront(value)`.  Both branches of the C++ `if` are
kept: for an empty list the new node's successor is the literal `nullptr`,
otherwise the current `head_.next_node`. -/
def PushFront (m : Heap α) (L : SLL) (v : α) : Heap α × SLL :=
  if L.GetSize = 0 then
    let r := m.alloc ⟨v, none⟩
    (writeHeadNext r.2 L (some r.1), ⟨L.headAddr, L.size_ + 1⟩)
  else
    let r := m.alloc ⟨v, headNext m L⟩
    (writeHeadNext r.2 L (some r.1), ⟨L.headAddr, L.size_ + 1⟩)

/-- Embedding of `InsertAfter(pos, value)`: allocate
`new Node(value, pos.node_->next_node)`, then set
`pos.node_->next_node = new_node`, increment `size_`, and return an iterator
at the new node.  Dereferencing an invalid `pos.node_` is undefined
behaviour (`none`). -/
def InsertAfter (m : Heap α) (L : SLL) (pos : Iter) (v : α) :
    Option (Heap α × SLL × Iter) :=
  match pos with
  | none => none
  | some p =>
    match m.lookup p with
    | none => none
    | some pnd =>
      let r := m.alloc ⟨v, pnd.next_node⟩
      some (r.2.write p ⟨pnd.value, some r.1⟩, ⟨L.headAddr, L.size_ + 1⟩, some r.1)

/-- Embedding of `EraseAfter(pos)`: `node_to_delete = pos.node_->next_node`,
`temp = std::next(pos)` (the same pointer), relink
`pos.node_->next_node = temp.node_->next_node`, `delete node_to_delete`,
decrement `size_` and return `Iterator(pos.node_->next_node)` (re-read after
the relink).  Each invalid dereference is undefined behaviour (`none`); in
particular `temp.node_->next_node` when `pos` has no successor. -/
def EraseAfter (m : Heap α) (L : SLL) (pos : Iter) :
    Option (Heap α × SLL × Iter) :=
  match pos with
  | none => none
  | some p =>
    match m.lookup p with
    | none => none
    | some pnd =>
      match pnd.next_node with
      | none => none
      | some d =>
        match m.lookup d with
        | none => none
        | some dnd =>
          let m₂ := (m.write p ⟨pnd.value, dnd.next_node⟩).free d
          match m₂.lookup p with
          | none => none
          | some pnd₂ => some (m₂, ⟨L.headAddr, L.size_ - 1⟩, pnd₂.next_node)

/-- Embedding of `PopFront()`: `temp = head_.next_node`,
`head_.next_node = temp->next_node` (undefined behaviour if the list is
empty), `delete temp`, decrement `size_`. -/
def PopFront (m : Heap α) (L : SLL) : Option (Heap α × SLL) :=
  match headNext m L with
  | none => none
  | some t =>
    match m.lookup t with
    | none => none
    | some tnd => some (((writeHeadNext m L tnd.next_node).free t), ⟨L.headAddr, L.size_ - 1⟩)

/-- The loop of `Clear()`: while `head_.next_node` is non-null, save the
second node, `delete` the first, and relink `head_`.  The C++ loop is
bounded only by the chain itself, so the embedding takes explicit fuel;
running out of fuel with a non-null head models non-termination (`none`). -/
def clearLoop (m : Heap α) (L : SLL) : Nat → Option (Heap α)
  | 0 =>
    match headNext m L with
    | none => some m
    | some _ => none
  | f + 1 =>
    match headNext m L with
    | none => some m
    | some h =>
      match m.lookup h with
      | none => none
      | some hnd => clearLoop (writeHeadNext (m.free h) L hnd.next_node) L f

/-- Embedding of `Clear()`: run the deletion loop, then `size_ = 0`. -/
def Clear (m : Heap α) (L : SLL) (fuel : Nat) : Option (Heap α × SLL) :=
  (clearLoop m L fuel).map (fun m₂ => (m₂, ⟨L.headAddr, 0⟩))

/-- Embedding of the destructor `~SingleLinkedList()`: its body is
`Clear();`. -/
def dtor (m : Heap α) (L : SLL) (fuel : Nat) : Option (Heap α × SLL) :=
  Clear m L fuel

/-- Embedding of the member `swap(other)`: save `other.head_.next_node`,
copy `this->head_.next_node` into `other`, the saved pointer into `this`,
and exchange the two `size_` fields.  No node is read or written except the
two sentinels. -/
def swap (m : Heap α) (A B : SLL) : Heap α × SLL × SLL :=
  let tempNext := headNext m B
  let m₁ := writeHeadNext m B (headNext m A)
  let m₂ := writeHeadNext m₁ A tempNext
  (m₂, ⟨A.headAddr, B.size_⟩, ⟨B.headAddr, A.size_⟩)

/-- Embedding of the free function `swap(lhs, rhs)`: `lhs.swap(rhs);`. -/
def swapFree (m : Heap α) (A B : SLL) : Heap α × SLL × SLL :=
  swap m A B

/-- Embedding of the default constructor: `size_(0)`, and the member
initializer of `Node` gives the sentinel `next_node = nullptr`.  The list
object is given a fresh address for its embedded sentinel `head_`; the
sentinel's value slot is default-initialized and never read. -/
def mkEmpty [Inhabited α] (m : Heap α) : Heap α × SLL :=
  let r := m.alloc (⟨default, none⟩ : Node α)
  (r.2, ⟨r.1, 0⟩)

/-- The backwards loop of the `std::initializer_list` constructor: walk the
input sequence from its last element to its first, calling
`temp.PushFront(*current_value_iterator)` on each. -/
def pushAllRev (m : Heap α) (L : SLL) : List α → Heap α × SLL
  | [] => (m, L)
  | v :: rest =>
    let r := pushAllRev m L rest
    PushFront r.1 r.2 v

/-- Embedding of `SingleLinkedList(std::initializer_list<Type> values)`.
The constructor does NOT initialize `size_`, so the embedding takes the
indeterminate initial value as an explicit parameter `g`; the theorems show
the result is independent of it.  A local default-constructed `temp` is
filled back-to-front by `PushFront` (or, when the input is empty, only has
`temp.size_ = 0` re-assigned), then `swap(temp)` adopts its state. -/
def fromInitList [Inhabited α] (m : Heap α) (g : Nat) (S : List α) : Heap α × SLL :=
  let r₁ := mkEmpty (α := α) m
  let this₁ : SLL := ⟨r₁.2.headAddr, g⟩
  let r₂ := mkEmpty (α := α) r₁.1
  if S.length ≠ 0 then
    let r₃ := pushAllRev r₂.1 r₂.2 S
    let r₄ := swap r₃.1 this₁ r₃.2
    (r₄.1, r₄.2.1)
  else
    let temp₁ : SLL := ⟨r₂.2.headAddr, 0⟩
    let r₄ := swap r₂.1 this₁ temp₁
    (r₄.1, r₄.2.1)

/-- The loop of the copy constructor, counting `i` from `other.GetSize()`
down to `1`: recompute `current_value_iterator = std::next(other.begin(), i - 1)`
and `temp.PushFront(*current_value_iterator)`. -/
def copyLoop (m : Heap α) (other temp : SLL) : Nat → Option (Heap α × SLL)
  | 0 => some (m, temp)
  | i + 1 =>
    match beginIter m other with
    | none => none
    | some b =>
      match advance m b i with
      | none => none
      | some it =>
        match iterDeref m it with
        | none => none
        | some v =>
          let r := PushFront m temp v
          copyLoop r.1 other r.2 i

/-- Embedding of the copy constructor
`SingleLinkedList(const SingleLinkedList& other)`: the new object starts
with `size_(0)` and a null sentinel link (the `assert` on these freshly
initialized members always passes), a default-constructed `temp` is filled
by the indexed loop, and `swap(temp)` adopts its state. -/
def copyCtor [Inhabited α] (m : Heap α) (other : SLL) : Option (Heap α × SLL) :=
  let r₁ := mkEmpty (α := α) m
  let r₂ := mkEmpty (α := α) r₁.1
  match copyLoop r₂.1 other r₂.2 other.GetSize with
  | none => none
  | some r₃ =>
    let r₄ := swap r₃.1 r₁.2 r₃.2
    some (r₄.1, r₄.2.1)

/-- Embedding of `operator=(const SingleLinkedList& rhs)`: on a
self-assignment (`this == &rhs`, i.e. the same object, identified by its
sentinel address) do nothing; otherwise copy-construct `temp(rhs)`,
`swap(temp)`, and let `temp`'s destructor (`Clear`) release the old
chain. -/
def opAssign [Inhabited α] (m : Heap α) (lhs rhs : SLL) (clearFuel : Nat) :
    Option (Heap α × SLL) :=
  if lhs.headAddr = rhs.headAddr then some (m, lhs)
  else
    match copyCtor m rhs with
    | none => none
    | some r₁ =>
      let r₂ := swap r₁.1 lhs r₁.2
      match dtor r₂.1 r₂.2.2 clearFuel with
      | none => none
      | some r₃ => some (r₃.1, r₂.2.1)

end SLL

/-- Embedding of the standard library algorithm
`std::equal(f₁, l₁, f₂, l₂)` as used by `operator==`/`operator!=`: advance
both iterators while neither has reached its end, comparing elements; at the
end both ranges must be exhausted together.  The loop is bounded only by the
chains, hence the fuel; each iteration dereferences and increments both
iterators (undefined behaviour propagates as `none`). -/
def stdEqual [DecidableEq α] (m : Heap α) :
    Nat → Iter → Iter → Iter → Iter → Option Bool
  | 0, _, _, _, _ => none
  | fuel + 1, f₁, l₁, f₂, l₂ =>
    if f₁ ≠ l₁ ∧ f₂ ≠ l₂ then
      match iterDeref m f₁, iterDeref m f₂ with
      | some v₁, some v₂ =>
        if v₁ = v₂ then
          match iterInc m f₁, iterInc m f₂ with
          | some g₁, some g₂ => stdEqual m fuel g₁ l₁ g₂ l₂
          | _, _ => none
        else some false
      | _, _ => none
    else some (decide (f₁ = l₁ ∧ f₂ = l₂))

/-- Embedding of `std::lexicographical_compare(f₁, l₁, f₂, l₂)`: walk both
ranges, returning true on the first position where the left element is
smaller, false where the right one is smaller; if the common prefix is
exhausted, true exactly when the left range ended and the right did not. -/
def lexCompare [LinearOrder α] (m : Heap α) :
    Nat → Iter → Iter → Iter → Iter → Option Bool
  | 0, _, _, _, _ => none
  | fuel + 1, f₁, l₁, f₂, l₂ =>
    if f₁ ≠ l₁ ∧ f₂ ≠ l₂ then
      match iterDeref m f₁, iterDeref m f₂ with
      | some v₁, some v₂ =>
        if v₁ < v₂ then some true
        else if v₂ < v₁ then some false
        else
          match iterInc m f₁, iterInc m f₂ with
          | some g₁, some g₂ => lexCompare m fuel g₁ l₁ g₂ l₂
          | _, _ => none
      | _, _ => none
    else some (decide (f₁ = l₁ ∧ f₂ ≠ l₂))

namespace SLL

/-- Embedding of the free `operator==`: when the two references denote
distinct objects, `std::equal(lhs.begin(), lhs.end(), rhs.begin(), rhs.end())`,
otherwise `true`. -/
def opEq [DecidableEq α] (m : Heap α) (lhs rhs : SLL) (fuel : Nat) : Option Bool :=
  if lhs.headAddr ≠ rhs.headAddr then
    match beginIter m lhs, endIter m lhs, beginIter m rhs, endIter m rhs with
    | some b₁, some e₁, some b₂, some e₂ => stdEqual m fuel b₁ e₁ b₂ e₂
    | _, _, _, _ => none
  else some true

/-- Embedding of the free `operator!=`: the negated `std::equal` call for
distinct objects, otherwise `false`. -/
def opNe [DecidableEq α] (m : Heap α) (lhs rhs : SLL) (fuel : Nat) : Option Bool :=
  if lhs.headAddr ≠ rhs.headAddr then
    match beginIter m lhs, endIter m lhs, beginIter m rhs, endIter m rhs with
    | some b₁, some e₁, some b₂, some e₂ => (stdEqual m fuel b₁ e₁ b₂ e₂).map (!·)
    | _, _, _, _ => none
  else some false

/-- Embedding of the free `operator<`: for distinct objects
`std::lexicographical_compare(lhs..., rhs...)`, otherwise `false`. -/
def opLt [LinearOrder α] (m : Heap α) (lhs rhs : SLL) (fuel : Nat) : Option Bool :=
  if lhs.headAddr ≠ rhs.headAddr then
    match beginIter m lhs, endIter m lhs, beginIter m rhs, endIter m rhs with
    | some b₁, some e₁, some b₂, some e₂ => lexCompare m fuel b₁ e₁ b₂ e₂
    | _, _, _, _ => none
  else some false

/-- Embedding of the free `operator<=`: for distinct objects
`!std::lexicographical_compare(rhs..., lhs...)`; for the same object the
`else` branch returns `false`. -/
def opLe [LinearOrder α] (m : Heap α) (lhs rhs : SLL) (fuel : Nat) : Option Bool :=
  if lhs.headAddr ≠ rhs.headAddr then
    match beginIter m rhs, endIter m rhs, beginIter m lhs, endIter m lhs with
    | some b₂, some e₂, some b₁, some e₁ => (lexCompare m fuel b₂ e₂ b₁ e₁).map (!·)
    | _, _, _, _ => none
  else some false

/-- Embedding of the free `operator>`: for distinct objects
`std::lexicographical_compare(rhs..., lhs...)`, otherwise `false`. -/
def opGt [LinearOrder α] (m : Heap α) (lhs rhs : SLL) (fuel : Nat) : Option Bool :=
  if lhs.headAddr ≠ rhs.headAddr then
    match beginIter m rhs, endIter m rhs, beginIter m lhs, endIter m lhs with
    | some b₂, some e₂, some b₁, some e₁ => lexCompare m fuel b₂ e₂ b₁ e₁
    | _, _, _, _ => none
  else some false

/-- Embedding of the free `operator>=`: for distinct objects
`!std::lexicographical_compare(lhs..., rhs...)`; for the same object the
`else` branch returns `false`. -/
def opGe [LinearOrder α] (m : Heap α) (lhs rhs : SLL) (fuel : Nat) : Option Bool :=
  if lhs.headAddr ≠ rhs.headAddr then
    match beginIter m lhs, endIter m lhs, beginIter m rhs, endIter m rhs with
    | some b₁, some e₁, some b₂, some e₂ => (lexCompare m fuel b₁ e₁ b₂ e₂).map (!·)
    | _, _, _, _ => none
  else some false

end SLL

/-- Observer (not source code): the cells of the node chain starting at
iterator `a`, provided following successor links hits `nullptr` after
exactly `n` live nodes; `none` otherwise. -/
def chainCells (m : Heap α) : Iter → Nat → Option (List (Nat × Node α))
  | none, 0 => some []
  | none, _ + 1 => none
  | some _, 0 => none
  | some a, n + 1 =>
    (m.lookup a).bind (fun nd => (chainCells m nd.next_node n).map (fun cs => (a, nd) :: cs))

namespace SLL

/-- Observer: the full cell list of a list object — the sentinel must be
live and walking `size_` successor links from `head_.next_node` must end at
`nullptr`. -/
def cells (m : Heap α) (L : SLL) : Option (List (Nat × Node α)) :=
  (m.lookup L.headAddr).bind (fun sd => chainCells m sd.next_node L.size_)

/-- Observer: the element values of a list object, front to back. -/
def toList (m : Heap α) (L : SLL) : Option (List α) :=
  (cells m L).map (fun cs => cs.map (fun c => c.2.value))

/-- Structural invariant of the container (decidable): the sentinel is live
and exactly `size_` successor links from it reach the `nullptr`
terminator. -/
def wf (m : Heap α) (L : SLL) : Bool :=
  (cells m L).isSome

end SLL

/-- Observer: the chain position reached after advancing `i` steps into a
cell list (`none` once the cells are exhausted, i.e. the end position). -/
def cellIter (cs : List (Nat × Node α)) (i : Nat) : Iter :=
  match cs.drop i with
  | [] => none
  | c :: _ => some c.1

namespace SLL

/-- Executable separation predicate for two list objects: both are well
formed, their sentinels are distinct, neither sentinel occurs in the
other's chain, and the chains are address-disjoint.  Two distinct C++ list
objects always satisfy this: every node has exactly one owner and each
sentinel is embedded in its own object. -/
def sepPair (m : Heap α) (A B : SLL) : Bool :=
  match cells m A, cells m B with
  | some acs, some bcs =>
    decide (A.headAddr ≠ B.headAddr) &&
    acs.all (fun c => c.1 ≠ B.headAddr) &&
    bcs.all (fun c => c.1 ≠ A.headAddr) &&
    acs.all (fun c => bcs.all (fun c₂ => c.1 ≠ c₂.1))
  | _, _ => false

end SLL

/-- Conclusion of claim C4 for copy construction: the copy equals the
source (by the embedded `operator==`, by value sequence and by count), is
well formed, the source is unchanged by the copy, and pushing to the front
of either list afterwards leaves the other list's contents intact. -/
def copyIndependent [Inhabited α] [DecidableEq α]
    (m : Heap α) (L : SLL) (v : α) (fuel : Nat) : Prop :=
  ∃ m₂ L₂, SLL.copyCtor m L = some (m₂, L₂) ∧
    SLL.opEq m₂ L L₂ fuel = some true ∧
    SLL.toList m₂ L₂ = SLL.toList m L ∧
    SLL.toList m₂ L = SLL.toList m L ∧
    L₂.GetSize = L.GetSize ∧
    SLL.wf m₂ L₂ = true ∧
    SLL.toList (SLL.PushFront m₂ L₂ v).1 L = SLL.toList m L ∧
    SLL.wf (SLL.PushFront m₂ L₂ v).1 L = true ∧
    SLL.toList (SLL.PushFront m₂ L v).1 L₂ = SLL.toList m₂ L₂ ∧
    SLL.wf (SLL.PushFront m₂ L v).1 L₂ = true

/-- Conclusion of claim C4 for copy assignment: after `lhs = rhs` the
target equals `rhs` (embedded `operator==` and value sequence), `rhs`
itself is unchanged by the assignment, and the storage is independent:
pushing a value to the front of the assigned list afterwards leaves the
source's contents intact, and pushing to the source leaves the assigned
list's contents intact. -/
def assignIndependent [Inhabited α] [DecidableEq α]
    (m : Heap α) (lhs rhs : SLL) (v : α) (fuel clearFuel : Nat) : Prop :=
  ∃ m₂ L₂, SLL.opAssign m lhs rhs clearFuel = some (m₂, L₂) ∧
    SLL.opEq m₂ rhs L₂ fuel = some true ∧
    SLL.toList m₂ L₂ = SLL.toList m rhs ∧
    SLL.toList m₂ rhs = SLL.toList m rhs ∧
    SLL.wf m₂ L₂ = true ∧
    SLL.toList (SLL.PushFront m₂ L₂ v).1 rhs = SLL.toList m rhs ∧
    SLL.wf (SLL.PushFront m₂ L₂ v).1 rhs = true ∧
    SLL.toList (SLL.PushFront m₂ rhs v).1 L₂ = SLL.toList m₂ L₂ ∧
    SLL.wf (SLL.PushFront m₂ rhs v).1 L₂ = true

/-- Conclusion of claim C6: inserting `v` after the position `pos` (which
sits `idx` advances after `before_begin`) splices exactly one new value in
at index `idx`, keeps all other elements in order, grows the count by one,
preserves the invariant, and returns an iterator at the freshly allocated
node, which dereferences to `v`. -/
def insertAfterSpec (m : Heap α) (L : SLL) (pos : Iter) (v : α) (idx : Nat)
    (l : List α) : Prop :=
  ∃ m₂ L₂ ret, SLL.InsertAfter m L pos v = some (m₂, L₂, ret) ∧
    L₂.GetSize = L.GetSize + 1 ∧
    SLL.toList m₂ L₂ = some (l.take idx ++ v :: l.drop idx) ∧
    SLL.wf m₂ L₂ = true ∧
    ret = some m.next ∧
    iterDeref m₂ ret = some v

/-- Conclusion of claim C7: erasing after the position `pos` (which sits
`idx` advances after `before_begin`) removes exactly the element at index
`idx`, keeps all other elements in order, shrinks the count by one,
preserves the invariant, and returns the position of the node that
followed the removed one — which dereferences to the old element at index
`idx + 1`, and is the null (end) position when the removed node was
last. -/
def eraseAfterSpec (m : Heap α) (L : SLL) (pos : Iter) (idx : Nat)
    (l : List α) : Prop :=
  ∃ m₂ L₂ ret, SLL.EraseAfter m L pos = some (m₂, L₂, ret) ∧
    L₂.GetSize = L.GetSize - 1 ∧
    SLL.toList m₂ L₂ = some (l.take idx ++ l.drop (idx + 1)) ∧
    SLL.wf m₂ L₂ = true ∧
    iterDeref m₂ ret = l[idx + 1]? ∧
    (idx + 1 = L.size_ → ret = none)

/-- Conclusion of claim C8: one `swap` exchanges the two sentinel links and
the two counts and touches no other heap cell; performing `swap` twice (via
the free function, which calls the member) restores both list objects, the
whole heap as observed by `lookup`, and both value sequences. -/
def swapInvolution (m : Heap α) (A B : SLL) : Prop :=
  (∀ b, b ≠ A.headAddr → b ≠ B.headAddr →
    (SLL.swapFree m A B).1.lookup b = m.lookup b) ∧
  (SLL.swapFree m A B).2.1 = ⟨A.headAddr, B.size_⟩ ∧
  (SLL.swapFree m A B).2.2 = ⟨B.headAddr, A.size_⟩ ∧
  SLL.headNext (SLL.swapFree m A B).1 (SLL.swapFree m A B).2.1 =
    SLL.headNext m B ∧
  SLL.headNext (SLL.swapFree m A B).1 (SLL.swapFree m A B).2.2 =
    SLL.headNext m A ∧
  (SLL.swapFree (SLL.swapFree m A B).1 (SLL.swapFree m A B).2.1
    (SLL.swapFree m A B).2.2).2.1 = A ∧
  (SLL.swapFree (SLL.swapFree m A B).1 (SLL.swapFree m A B).2.1
    (SLL.swapFree m A B).2.2).2.2 = B ∧
  (∀ b, (SLL.swapFree (SLL.swapFree m A B).1 (SLL.swapFree m A B).2.1
    (SLL.swapFree m A B).2.2).1.lookup b = m.lookup b) ∧
  SLL.toList (SLL.swapFree (SLL.swapFree m A B).1 (SLL.swapFree m A B).2.1
    (SLL.swapFree m A B).2.2).1 A = SLL.toList m A ∧
  SLL.toList (SLL.swapFree (SLL.swapFree m A B).1 (SLL.swapFree m A B).2.1
    (SLL.swapFree m A B).2.2).1 B = SLL.toList m B

/-- Conclusion of claim C9: the structural invariant — the sentinel is live
and exactly `size_` successor links reach the null terminator, with
`size_ = 0` iff the sentinel link is null — holds after every public
operation: default construction, initializer-list construction, copy
construction, copy assignment, swap (both objects), push-front,
insert-after, erase-after, pop-front, clear, and destruction. -/
def C9Inv [Inhabited α] (m : Heap α) (L B : SLL) (g : Nat) (S : List α)
    (v : α) (pos pos₂ : Iter) (fuel : Nat) : Prop :=
  (L.size_ = 0 ↔ SLL.headNext m L = none) ∧
  SLL.wf (SLL.mkEmpty m).1 (SLL.mkEmpty m).2 = true ∧
  SLL.wf (SLL.fromInitList m g S).1 (SLL.fromInitList m g S).2 = true ∧
  (∃ r, SLL.copyCtor m L = some r ∧ SLL.wf r.1 r.2 = true) ∧
  (∃ r, SLL.opAssign m L B fuel = some r ∧ SLL.wf r.1 r.2 = true) ∧
  SLL.wf (SLL.swap m L B).1 (SLL.swap m L B).2.1 = true ∧
  SLL.wf (SLL.swap m L B).1 (SLL.swap m L B).2.2 = true ∧
  SLL.wf (SLL.PushFront m L v).1 (SLL.PushFront m L v).2 = true ∧
  (∃ r, SLL.InsertAfter m L pos v = some r ∧ SLL.wf r.1 r.2.1 = true) ∧
  (∃ r, SLL.EraseAfter m L pos₂ = some r ∧ SLL.wf r.1 r.2.1 = true) ∧
  (0 < L.size_ → ∃ r, SLL.PopFront m L = some r ∧ SLL.wf r.1 r.2 = true) ∧
  (∃ r, SLL.Clear m L L.size_ = some r ∧ SLL.wf r.1 r.2 = true) ∧
  (∃ r, SLL.dtor m L L.size_ = some r ∧ SLL.wf r.1 r.2 = true)

namespace Heap

theorem lookup_write (m : Heap α) (a : Nat) (nd : Node α) (b : Nat) :
    (m.write a nd).lookup b = if a = b then some nd else m.lookup b := rfl

theorem lookup_alloc (m : Heap α) (nd : Node α) (b : Nat) :
    ((m.alloc nd).2).lookup b = if m.next = b then some nd else m.lookup b := rfl

theorem alloc_fst (m : Heap α) (nd : Node α) : (m.alloc nd).1 = m.next := rfl

theorem alloc_next (m : Heap α) (nd : Node α) : ((m.alloc nd).2).next = m.next + 1 := rfl

theorem write_next (m : Heap α) (a : Nat) (nd : Node α) :
    (m.write a nd).next = m.next := rfl

theorem free_next (m : Heap α) (a : Nat) : (m.free a).next = m.next := rfl

theorem lookupTbl_filter_ne (a b : Nat) (l : List (Nat × Node α)) :
    lookupTbl b (l.filter (fun c => c.1 ≠ a)) =
      if a = b then none else lookupTbl b l := by
  induction l with
  | nil => simp [lookupTbl]
  | cons c rest ih =>
    by_cases hca : c.1 = a
    · rw [List.filter_cons_of_neg (by simp [hca]), ih]
      by_cases hab : a = b
      · simp [hab]
      · have hcb : ¬ c.1 = b := fun h => hab (hca.symm.trans h)
        simp [hab, lookupTbl, hcb]
    · rw [List.filter_cons_of_pos (by simp [hca])]
      by_cases hcb : c.1 = b
      · have hab : ¬ a = b := fun h => hca (hcb.trans h.symm)
        simp only [lookupTbl]
        rw [if_pos hcb, if_neg hab, if_pos hcb]
      · simp only [lookupTbl]
        rw [if_neg hcb, if_neg hcb, ih]

theorem lookup_free (m : Heap α) (a b : Nat) :
    (m.free a).lookup b = if a = b then none else m.lookup b :=
  lookupTbl_filter_ne a b m.tbl

theorem lookupTbl_mem (a : Nat) (nd : Node α) (l : List (Nat × Node α)) :
    lookupTbl a l = some nd → (a, nd) ∈ l := by
  induction l with
  | nil => simp [lookupTbl]
  | cons c rest ih =>
    cases c with
    | mk c1 c2 =>
      by_cases hca : c1 = a
      · subst hca
        intro h
        simp [lookupTbl] at h
        subst h
        exact List.mem_cons_self _ _
      · intro h
        simp [lookupTbl, hca] at h
        exact List.mem_cons_of_mem _ (ih h)

theorem good_spec (m : Heap α) :
    m.good = true ↔ ∀ c ∈ m.tbl, c.1 < m.next := by
  simp [good, List.all_eq_true]

theorem lookup_lt_of_good (m : Heap α) (a : Nat) (nd : Node α)
    (hg : m.good = true) (h : m.lookup a = some nd) : a < m.next := by
  have hmem := lookupTbl_mem a nd m.tbl h
  exact (good_spec m).1 hg _ hmem

theorem good_alloc (m : Heap α) (nd : Node α)
    (hg : m.good = true) : ((m.alloc nd).2).good = true := by
  rw [good_spec] at hg ⊢
  intro c hc
  simp only [alloc, List.mem_cons] at hc
  rcases hc with hc | hc
  · subst hc
    simp only [alloc]
    omega
  · simp only [alloc]
    exact Nat.lt_succ_of_lt (hg c hc)

theorem good_write (m : Heap α) (a : Nat) (nd : Node α)
    (hg : m.good = true) (ha : a < m.next) : (m.write a nd).good = true := by
  rw [good_spec] at hg ⊢
  intro c hc
  simp only [write, List.mem_cons] at hc
  rcases hc with hc | hc
  · subst hc
    simpa only [write] using ha
  · simpa only [write] using hg c hc

theorem good_free (m : Heap α) (a : Nat)
    (hg : m.good = true) : (m.free a).good = true := by
  rw [good_spec] at hg ⊢
  intro c hc
  simp only [free, List.mem_filter] at hc
  exact hg c hc.1

end Heap

theorem chainCells_zero_inv {m : Heap α} {a : Iter} {cs : List (Nat × Node α)}
    (h : chainCells m a 0 = some cs) : a = none ∧ cs = [] := by
  cases a with
  | none => simp [chainCells] at h; simp [h]
  | some p => simp [chainCells] at h

theorem chainCells_succ_inv {m : Heap α} {a : Iter} {n : Nat}
    {cs : List (Nat × Node α)} (h : chainCells m a (n + 1) = some cs) :
    ∃ p nd cs₂, a = some p ∧ m.lookup p = some nd ∧
      chainCells m nd.next_node n = some cs₂ ∧ cs = (p, nd) :: cs₂ := by
  cases a with
  | none => simp [chainCells] at h
  | some p =>
    simp only [chainCells, Option.bind_eq_some, Option.map_eq_some'] at h
    obtain ⟨nd, hnd, cs₂, hcs₂, hcons⟩ := h
    exact ⟨p, nd, cs₂, rfl, hnd, hcs₂, hcons.symm⟩

theorem chainCells_length {m : Heap α} :
    ∀ {n : Nat} {a : Iter} {cs : List (Nat × Node α)},
      chainCells m a n = some cs → cs.length = n := by
  intro n
  induction n with
  | zero =>
    intro a cs h
    obtain ⟨-, rfl⟩ := chainCells_zero_inv h
    rfl
  | succ k ih =>
    intro a cs h
    obtain ⟨p, nd, cs₂, rfl, -, hcs₂, rfl⟩ := chainCells_succ_inv h
    simp [ih hcs₂]

theorem chainCells_lookup {m : Heap α} :
    ∀ {n : Nat} {a : Iter} {cs : List (Nat × Node α)} {c : Nat × Node α},
      chainCells m a n = some cs → c ∈ cs → m.lookup c.1 = some c.2 := by
  intro n
  induction n with
  | zero =>
    intro a cs c h hc
    obtain ⟨-, rfl⟩ := chainCells_zero_inv h
    simp at hc
  | succ k ih =>
    intro a cs c h hc
    obtain ⟨p, nd, cs₂, rfl, hnd, hcs₂, rfl⟩ := chainCells_succ_inv h
    rcases List.mem_cons.1 hc with hc | hc
    · subst hc; exact hnd
    · exact ih hcs₂ hc

theorem chainCells_fuel_unique {m : Heap α} :
    ∀ {n₁ n₂ : Nat} {a : Iter} {cs₁ cs₂ : List (Nat × Node α)},
      chainCells m a n₁ = some cs₁ → chainCells m a n₂ = some cs₂ → n₁ = n₂ := by
  intro n₁
  induction n₁ with
  | zero =>
    intro n₂ a cs₁ cs₂ h₁ h₂
    obtain ⟨rfl, -⟩ := chainCells_zero_inv h₁
    cases n₂ with
    | zero => rfl
    | succ k => simp [chainCells] at h₂
  | succ k ih =>
    intro n₂ a cs₁ cs₂ h₁ h₂
    obtain ⟨p, nd, cs₁b, rfl, hnd, hcs₁, rfl⟩ := chainCells_succ_inv h₁
    cases n₂ with
    | zero => simp [chainCells] at h₂
    | succ k₂ =>
      obtain ⟨p₂, nd₂, cs₂b, hp₂, hnd₂, hcs₂, rfl⟩ := chainCells_succ_inv h₂
      obtain rfl : p = p₂ := by cases hp₂; rfl
      rw [hnd] at hnd₂
      cases hnd₂
      exact congrArg Nat.succ (ih hcs₁ hcs₂)

theorem chainCells_mem_walk {m : Heap α} :
    ∀ {n : Nat} {a : Iter} {cs : List (Nat × Node α)} {c : Nat × Node α},
      chainCells m a n = some cs → c ∈ cs →
      ∃ k cs₂, 0 < k ∧ k ≤ n ∧ chainCells m (some c.1) k = some cs₂ := by
  intro n
  induction n with
  | zero =>
    intro a cs c h hc
    obtain ⟨-, rfl⟩ := chainCells_zero_inv h
    simp at hc
  | succ k ih =>
    intro a cs c h hc
    obtain ⟨p, nd, cs₂, rfl, hnd, hcs₂, rfl⟩ := chainCells_succ_inv h
    rcases List.mem_cons.1 hc with hc | hc
    · subst hc
      exact ⟨k + 1, (p, nd) :: cs₂, Nat.succ_pos _, Nat.le_refl _, by
        simpa [chainCells, hnd] using hcs₂⟩
    · obtain ⟨k₂, cs₃, hk0, hk, hw⟩ := ih hcs₂ hc
      exact ⟨k₂, cs₃, hk0, Nat.le_succ_of_le hk, hw⟩

theorem chainCells_nodup {m : Heap α} :
    ∀ {n : Nat} {a : Iter} {cs : List (Nat × Node α)},
      chainCells m a n = some cs → (cs.map Prod.fst).Nodup := by
  intro n
  induction n with
  | zero =>
    intro a cs h
    obtain ⟨-, rfl⟩ := chainCells_zero_inv h
    simp
  | succ k ih =>
    intro a cs h
    obtain ⟨p, nd, cs₂, rfl, hnd, hcs₂, rfl⟩ := chainCells_succ_inv h
    simp only [List.map_cons, List.nodup_cons]
    refine ⟨?_, ih hcs₂⟩
    intro hp
    obtain ⟨c, hc, hc1⟩ := List.mem_map.1 hp
    obtain ⟨k₂, cs₃, hk0, hk, hw⟩ := chainCells_mem_walk hcs₂ hc
    rw [hc1] at hw
    have hfull : chainCells m (some p) (k + 1) = some ((p, nd) :: cs₂) := by
      simpa [chainCells, hnd] using hcs₂
    have := chainCells_fuel_unique hw hfull
    omega

theorem chainCells_congr {m m₂ : Heap α} :
    ∀ {n : Nat} {a : Iter} {cs : List (Nat × Node α)},
      chainCells m a n = some cs →
      (∀ c ∈ cs, m₂.lookup c.1 = m.lookup c.1) →
      chainCells m₂ a n = some cs := by
  intro n
  induction n with
  | zero =>
    intro a cs h _
    obtain ⟨rfl, rfl⟩ := chainCells_zero_inv h
    rfl
  | succ k ih =>
    intro a cs h hsame
    obtain ⟨p, nd, cs₂, rfl, hnd, hcs₂, rfl⟩ := chainCells_succ_inv h
    have hp₂ : m₂.lookup p = some nd := by
      rw [hsame (p, nd) (List.mem_cons_self _ _)]; exact hnd
    have htail := ih hcs₂ (fun c hc => hsame c (List.mem_cons_of_mem _ hc))
    simp [chainCells, hp₂, htail]

theorem sentinel_not_in_chain {m : Heap α} {h : Nat} {sd : Node α} {n : Nat}
    {cs : List (Nat × Node α)}
    (hsd : m.lookup h = some sd) (hcs : chainCells m sd.next_node n = some cs) :
    ∀ c ∈ cs, c.1 ≠ h := by
  intro c hc hch
  obtain ⟨k₂, cs₃, hk0, hk, hw⟩ := chainCells_mem_walk hcs hc
  rw [hch] at hw
  have hfull : chainCells m (some h) (n + 1) = some ((h, sd) :: cs) := by
    simpa [chainCells, hsd] using hcs
  have := chainCells_fuel_unique hw hfull
  omega

theorem chainCells_lt_next {m : Heap α} {n : Nat} {a : Iter}
    {cs : List (Nat × Node α)} (hg : m.good = true)
    (h : chainCells m a n = some cs) : ∀ c ∈ cs, c.1 < m.next := by
  intro c hc
  exact Heap.lookup_lt_of_good m c.1 c.2 hg (chainCells_lookup h hc)

theorem endWalk_chain {m : Heap α} :
    ∀ {n : Nat} {a : Iter} {cs : List (Nat × Node α)},
      chainCells m a n = some cs → SLL.endWalk m a n = some none := by
  intro n
  induction n with
  | zero =>
    intro a cs h
    obtain ⟨rfl, -⟩ := chainCells_zero_inv h
    rfl
  | succ k ih =>
    intro a cs h
    obtain ⟨p, nd, cs₂, rfl, hnd, hcs₂, rfl⟩ := chainCells_succ_inv h
    simp [SLL.endWalk, hnd, ih hcs₂]

theorem endWalkCount_chain {m : Heap α} :
    ∀ {n : Nat} {a : Iter} {cs : List (Nat × Node α)},
      chainCells m a n = some cs → SLL.endWalkCount m a n = (some none, n) := by
  intro n
  induction n with
  | zero =>
    intro a cs h
    obtain ⟨rfl, -⟩ := chainCells_zero_inv h
    rfl
  | succ k ih =>
    intro a cs h
    obtain ⟨p, nd, cs₂, rfl, hnd, hcs₂, rfl⟩ := chainCells_succ_inv h
    simp [SLL.endWalkCount, hnd, ih hcs₂]

theorem advance_chain {m : Heap α} :
    ∀ {i n : Nat} {a : Iter} {cs : List (Nat × Node α)},
      chainCells m a n = some cs → i ≤ n →
      advance m a i = some (cellIter cs i) := by
  intro i
  induction i with
  | zero =>
    intro n a cs h _
    cases n with
    | zero =>
      obtain ⟨rfl, rfl⟩ := chainCells_zero_inv h
      rfl
    | succ k =>
      obtain ⟨p, nd, cs₂, rfl, -, -, rfl⟩ := chainCells_succ_inv h
      rfl
  | succ i ih =>
    intro n a cs h hi
    cases n with
    | zero => omega
    | succ k =>
      obtain ⟨p, nd, cs₂, rfl, hnd, hcs₂, rfl⟩ := chainCells_succ_inv h
      have : advance m (some p) (i + 1) = advance m nd.next_node i := by
        simp [advance, iterInc, hnd]
      rw [this, ih hcs₂ (by omega)]
      rfl

namespace SLL

theorem beginIter_eq (m : Heap α) (L : SLL) :
    beginIter m L = some (headNext m L) := by
  unfold beginIter
  by_cases h : L.size_ ≠ 0
  · rw [if_pos h]
  · rw [if_neg h]
    push_neg at h
    unfold endIter
    rw [h]
    rfl

/-- The loop of `end()` follows exactly `size_` successor links on any
well-formed list, and returns the null iterator. -/
theorem endIter_wf {m : Heap α} {L : SLL} {sd : Node α}
    {cs : List (Nat × Node α)}
    (hsd : m.lookup L.headAddr = some sd)
    (hcs : chainCells m sd.next_node L.size_ = some cs) :
    endIter m L = some none ∧ endSteps m L = L.size_ := by
  have hh : headNext m L = sd.next_node := by simp [headNext, hsd]
  constructor
  · unfold endIter
    rw [hh]
    exact endWalk_chain hcs
  · unfold endSteps
    rw [hh, endWalkCount_chain hcs]

theorem writeHeadNext_eq {m : Heap α} {L : SLL} {sd : Node α}
    (hsd : m.lookup L.headAddr = some sd) (x : Iter) :
    writeHeadNext m L x = m.write L.headAddr ⟨sd.value, x⟩ := by
  unfold writeHeadNext
  rw [hsd]

theorem headNext_eq {m : Heap α} {L : SLL} {sd : Node α}
    (hsd : m.lookup L.headAddr = some sd) :
    headNext m L = sd.next_node := by
  unfold headNext
  rw [hsd]

/-- Specification of `PushFront`: on a heap whose sentinel for `L` is live
and whose chain matches `size_`, the push allocates one node at the fresh
address, relinks only the sentinel, grows `size_` by one, and leaves every
other address untouched. -/
theorem PushFront_spec {m : Heap α} {L : SLL} {sd : Node α}
    {cs : List (Nat × Node α)} (v : α)
    (hg : m.good = true)
    (hsd : m.lookup L.headAddr = some sd)
    (hcs : chainCells m sd.next_node L.size_ = some cs) :
    (PushFront m L v).2 = ⟨L.headAddr, L.size_ + 1⟩ ∧
    (PushFront m L v).1.good = true ∧
    (PushFront m L v).1.next = m.next + 1 ∧
    (PushFront m L v).1.lookup L.headAddr = some ⟨sd.value, some m.next⟩ ∧
    chainCells (PushFront m L v).1 (some m.next) (L.size_ + 1) =
      some ((m.next, ⟨v, sd.next_node⟩) :: cs) ∧
    (∀ b, b ≠ L.headAddr → b ≠ m.next → (PushFront m L v).1.lookup b = m.lookup b) := by
  have hha : L.headAddr < m.next := Heap.lookup_lt_of_good m _ _ hg hsd
  have hsd2 : ∀ nd : Node α, ((m.alloc nd).2).lookup L.headAddr = some sd := by
    intro nd
    rw [Heap.lookup_alloc, if_neg (by omega)]
    exact hsd
  -- both branches of the `if` in `PushFront` produce the same node
  -- successor: when `size_ = 0` the chain hypothesis forces
  -- `sd.next_node = none`.
  have hbody1 : (PushFront m L v).1 =
      ((m.alloc ⟨v, sd.next_node⟩).2.write L.headAddr ⟨sd.value, some m.next⟩) := by
    unfold PushFront
    by_cases hz : L.GetSize = 0
    · have hz2 : L.size_ = 0 := hz
      have hnone : sd.next_node = none := by
        rw [hz2] at hcs
        exact (chainCells_zero_inv hcs).1
      rw [if_pos hz, hnone]
      exact writeHeadNext_eq (hsd2 _) _
    · rw [if_neg hz]
      have hh : headNext m L = sd.next_node := by simp [headNext, hsd]
      rw [hh]
      exact writeHeadNext_eq (hsd2 _) _
  have hbody2 : (PushFront m L v).2 = ⟨L.headAddr, L.size_ + 1⟩ := by
    unfold PushFront
    by_cases hz : L.GetSize = 0 <;> simp [hz]
  set m₂ := (PushFront m L v).1 with hm₂
  have hlook : ∀ b, m₂.lookup b =
      if L.headAddr = b then some ⟨sd.value, some m.next⟩
      else if m.next = b then some ⟨v, sd.next_node⟩
      else m.lookup b := by
    intro b
    rw [hbody1, Heap.lookup_write, Heap.lookup_alloc]
  refine ⟨hbody2, ?_, ?_, ?_, ?_, ?_⟩
  · rw [hbody1]
    exact Heap.good_write _ _ _ (Heap.good_alloc _ _ hg) (by simp [Heap.alloc]; omega)
  · rw [hbody1]
    rfl
  · rw [hlook L.headAddr, if_pos rfl]
  · have htail : chainCells m₂ sd.next_node L.size_ = some cs := by
      refine chainCells_congr hcs ?_
      intro c hc
      rw [hlook c.1]
      have h1 : c.1 ≠ L.headAddr := sentinel_not_in_chain hsd hcs c hc
      have h2 : c.1 < m.next := chainCells_lt_next hg hcs c hc
      rw [if_neg (fun h => h1 h.symm), if_neg (by omega)]
    have hnew : m₂.lookup m.next = some ⟨v, sd.next_node⟩ := by
      rw [hlook m.next, if_neg (by omega), if_pos rfl]
    simp [chainCells, hnew, htail]
  · intro b hb1 hb2
    rw [hlook b, if_neg (fun h => hb1 h.symm), if_neg (fun h => hb2 h.symm)]

/-- Specification of the backwards push loop of the initializer-list
constructor: it prepends the sequence `S` to the chain, element values in
order, allocating only fresh nodes and writing only the sentinel. -/
theorem pushAllRev_spec :
    ∀ (S : List α) {m : Heap α} {L : SLL} {sd : Node α}
      {cs : List (Nat × Node α)},
      m.good = true →
      m.lookup L.headAddr = some sd →
      chainCells m sd.next_node L.size_ = some cs →
      (pushAllRev m L S).2 = ⟨L.headAddr, L.size_ + S.length⟩ ∧
      (pushAllRev m L S).1.good = true ∧
      m.next ≤ (pushAllRev m L S).1.next ∧
      (∀ b, b ≠ L.headAddr → b < m.next →
        (pushAllRev m L S).1.lookup b = m.lookup b) ∧
      ∃ sd₂ cs₂,
        (pushAllRev m L S).1.lookup L.headAddr = some sd₂ ∧
        sd₂.value = sd.value ∧
        chainCells (pushAllRev m L S).1 sd₂.next_node (L.size_ + S.length) = some cs₂ ∧
        cs₂.map (fun c => c.2.value) = S ++ cs.map (fun c => c.2.value) ∧
        (∀ c ∈ cs₂, c.1 ∈ cs.map Prod.fst ∨ m.next ≤ c.1) := by
  intro S
  induction S with
  | nil =>
    intro m L sd cs hg hsd hcs
    refine ⟨rfl, hg, Nat.le_refl _, fun b _ _ => rfl, sd, cs, hsd, rfl, hcs, rfl, ?_⟩
    intro c hc
    exact Or.inl (List.mem_map.2 ⟨c, hc, rfl⟩)
  | cons v rest ih =>
    intro m L sd cs hg hsd hcs
    obtain ⟨h2, hgood, hnext, hframe, sd₂, cs₂, hsd₂, hval, hchain, hvals, hfresh⟩ :=
      ih hg hsd hcs
    have hstep : pushAllRev m L (v :: rest) =
        PushFront (pushAllRev m L rest).1 (pushAllRev m L rest).2 v := rfl
    rw [hstep, h2]
    have hsd₂b : (pushAllRev m L rest).1.lookup
        (SLL.mk L.headAddr (L.size_ + rest.length)).headAddr = some sd₂ := hsd₂
    have hchainb : chainCells (pushAllRev m L rest).1 sd₂.next_node
        (SLL.mk L.headAddr (L.size_ + rest.length)).size_ = some cs₂ := hchain
    obtain ⟨p2, pg, pnext, psd, pchain, pframe⟩ :=
      PushFront_spec v hgood hsd₂b hchainb
    have hlen : L.size_ + rest.length + 1 = L.size_ + (rest.length + 1) := by omega
    refine ⟨?_, pg, ?_, ?_, ?_⟩
    · rw [p2]
      simp [hlen]
    · omega
    · intro b hb1 hb2
      rw [pframe b hb1 (by omega), hframe b hb1 hb2]
    · refine ⟨⟨sd₂.value, some (pushAllRev m L rest).1.next⟩,
        ((pushAllRev m L rest).1.next, ⟨v, sd₂.next_node⟩) :: cs₂, psd, hval, ?_, ?_, ?_⟩
      · simp only [List.length_cons]
        rw [← hlen]
        simpa using pchain
      · simp [hvals]
      · intro c hc
        rcases List.mem_cons.1 hc with hc | hc
        · subst hc
          exact Or.inr (by omega)
        · rcases hfresh c hc with hmem | hge
          · exact Or.inl hmem
          · exact Or.inr (by omega)

/-- Specification of the member `swap` for two distinct list objects: the
two sentinel links and the two counts are exchanged and no other heap cell
is read or written. -/
theorem swap_spec {m : Heap α} {A B : SLL} {sa sb : Node α}
    (hg : m.good = true)
    (hA : m.lookup A.headAddr = some sa) (hB : m.lookup B.headAddr = some sb)
    (hAB : A.headAddr ≠ B.headAddr) :
    (swap m A B).1.good = true ∧
    (swap m A B).1.next = m.next ∧
    (swap m A B).1.lookup A.headAddr = some ⟨sa.value, sb.next_node⟩ ∧
    (swap m A B).1.lookup B.headAddr = some ⟨sb.value, sa.next_node⟩ ∧
    (∀ b, b ≠ A.headAddr → b ≠ B.headAddr → (swap m A B).1.lookup b = m.lookup b) ∧
    (swap m A B).2.1 = ⟨A.headAddr, B.size_⟩ ∧
    (swap m A B).2.2 = ⟨B.headAddr, A.size_⟩ := by
  have hA' : A.headAddr < m.next := Heap.lookup_lt_of_good m _ _ hg hA
  have hB' : B.headAddr < m.next := Heap.lookup_lt_of_good m _ _ hg hB
  have h2 : (m.write B.headAddr ⟨sb.value, sa.next_node⟩).lookup A.headAddr = some sa := by
    rw [Heap.lookup_write, if_neg (fun h => hAB h.symm)]
    exact hA
  have hswap : (swap m A B).1 =
      (m.write B.headAddr ⟨sb.value, sa.next_node⟩).write A.headAddr
        ⟨sa.value, sb.next_node⟩ := by
    show writeHeadNext (writeHeadNext m B (headNext m A)) A (headNext m B) = _
    rw [headNext_eq hA, headNext_eq hB, writeHeadNext_eq hB, writeHeadNext_eq h2]
  refine ⟨?_, ?_, ?_, ?_, ?_, rfl, rfl⟩
  · rw [hswap]
    exact Heap.good_write _ _ _ (Heap.good_write _ _ _ hg hB') hA'
  · rw [hswap]
    rfl
  · rw [hswap, Heap.lookup_write, if_pos rfl]
  · rw [hswap, Heap.lookup_write, if_neg hAB, Heap.lookup_write, if_pos rfl]
  · intro b hbA hbB
    rw [hswap, Heap.lookup_write, if_neg (fun h => hbA h.symm),
      Heap.lookup_write, if_neg (fun h => hbB h.symm)]

/-- Specification of the initializer-list constructor: independently of the
indeterminate initial `size_` value `g`, the resulting object carries chain
values exactly `S`, count `S.length`, only fresh storage, and the rest of
the heap is untouched. -/
theorem fromInitList_spec [Inhabited α] (m : Heap α) (g : Nat) (S : List α)
    (hg : m.good = true) :
    (fromInitList m g S).2.headAddr = m.next ∧
    (fromInitList m g S).2.size_ = S.length ∧
    (fromInitList m g S).1.good = true ∧
    m.next + 2 ≤ (fromInitList m g S).1.next ∧
    (∀ b, b < m.next → (fromInitList m g S).1.lookup b = m.lookup b) ∧
    ∃ sd cs, (fromInitList m g S).1.lookup m.next = some sd ∧
      chainCells (fromInitList m g S).1 sd.next_node S.length = some cs ∧
      cs.map (fun c => c.2.value) = S ∧
      (∀ c ∈ cs, m.next + 2 ≤ c.1) := by
  have hg₁ : ((m.alloc (⟨default, none⟩ : Node α)).2).good = true := Heap.good_alloc _ _ hg
  have hg₂ : (((m.alloc (⟨default, none⟩ : Node α)).2.alloc
      (⟨default, none⟩ : Node α)).2).good = true := Heap.good_alloc _ _ hg₁
  set m₂ := ((m.alloc (⟨default, none⟩ : Node α)).2.alloc (⟨default, none⟩ : Node α)).2
    with hm₂def
  have hm₂next : m₂.next = m.next + 2 := rfl
  have hlookA : m₂.lookup m.next = some ⟨default, none⟩ := by
    show ((m.alloc (⟨default, none⟩ : Node α)).2.alloc
      (⟨default, none⟩ : Node α)).2.lookup m.next = _
    rw [Heap.lookup_alloc, if_neg (by show ¬ (m.next + 1 = m.next); omega),
      Heap.lookup_alloc, if_pos rfl]
  have hlookB : m₂.lookup (m.next + 1) = some ⟨default, none⟩ := by
    show ((m.alloc (⟨default, none⟩ : Node α)).2.alloc
      (⟨default, none⟩ : Node α)).2.lookup (m.next + 1) = _
    rw [Heap.lookup_alloc,
      if_pos (show (m.alloc (⟨default, none⟩ : Node α)).2.next = m.next + 1 from rfl)]
  have hlookOld : ∀ b, b < m.next → m₂.lookup b = m.lookup b := by
    intro b hb
    show ((m.alloc (⟨default, none⟩ : Node α)).2.alloc
      (⟨default, none⟩ : Node α)).2.lookup b = _
    rw [Heap.lookup_alloc, if_neg (by show ¬ (m.next + 1 = b); omega),
      Heap.lookup_alloc, if_neg (by show ¬ (m.next = b); omega)]
  by_cases hS : S.length ≠ 0
  · have hstep1 : fromInitList m g S =
        ((swap (pushAllRev m₂ ⟨m.next + 1, 0⟩ S).1 ⟨m.next, g⟩
          (pushAllRev m₂ ⟨m.next + 1, 0⟩ S).2).1,
         (swap (pushAllRev m₂ ⟨m.next + 1, 0⟩ S).1 ⟨m.next, g⟩
          (pushAllRev m₂ ⟨m.next + 1, 0⟩ S).2).2.1) := by
      unfold fromInitList
      rw [if_pos hS]
      rfl
    obtain ⟨h2, hgood, hnext, hframe, sd₂, cs₂, hsd₂, hval, hchain, hvals, hfresh⟩ :=
      pushAllRev_spec S (m := m₂) (L := ⟨m.next + 1, 0⟩) hg₂ hlookB rfl
    have hfresh₂ : ∀ c ∈ cs₂, m.next + 2 ≤ c.1 := by
      intro c hc
      rcases hfresh c hc with hmem | hge
      · simp at hmem
      · rw [hm₂next] at hge
        exact hge
    have hsdA : (pushAllRev m₂ ⟨m.next + 1, 0⟩ S).1.lookup m.next =
        some ⟨default, none⟩ := by
      rw [hframe m.next (by show m.next ≠ m.next + 1; omega)
        (by rw [hm₂next]; omega)]
      exact hlookA
    rw [hstep1, h2]
    obtain ⟨sg, snext, slookA, slookB, sframe, s21, s22⟩ :=
      swap_spec (A := ⟨m.next, g⟩) (B := ⟨m.next + 1, 0 + S.length⟩)
        hgood hsdA hsd₂
        (by show m.next ≠ m.next + 1; omega)
    refine ⟨?_, ?_, sg, ?_, ?_, ?_⟩
    · rw [s21]
    · rw [s21]
      show 0 + S.length = S.length
      omega
    · rw [snext]
      rw [hm₂next] at hnext
      omega
    · intro b hb
      rw [sframe b (by show b ≠ m.next; omega) (by show b ≠ m.next + 1; omega),
        hframe b (by show b ≠ m.next + 1; omega) (by rw [hm₂next]; omega),
        hlookOld b hb]
    · refine ⟨⟨default, sd₂.next_node⟩, cs₂, slookA, ?_, by simpa using hvals, hfresh₂⟩
      rw [Nat.zero_add] at hchain
      refine chainCells_congr hchain ?_
      intro c hc
      have hge := hfresh₂ c hc
      rw [sframe c.1 (by show c.1 ≠ m.next; omega) (by show c.1 ≠ m.next + 1; omega)]
  · have hS0 : S = [] := by
      rcases S with _ | ⟨a, S⟩
      · rfl
      · simp at hS
    subst hS0
    have hstep1 : fromInitList m g ([] : List α) =
        ((swap m₂ ⟨m.next, g⟩ ⟨m.next + 1, 0⟩).1,
         (swap m₂ ⟨m.next, g⟩ ⟨m.next + 1, 0⟩).2.1) := by
      unfold fromInitList
      rw [if_neg hS]
      rfl
    rw [hstep1]
    obtain ⟨sg, snext, slookA, slookB, sframe, s21, s22⟩ :=
      swap_spec (A := ⟨m.next, g⟩) (B := ⟨m.next + 1, 0⟩)
        hg₂ hlookA hlookB
        (by show m.next ≠ m.next + 1; omega)
    refine ⟨?_, ?_, sg, ?_, ?_, ?_⟩
    · rw [s21]
    · rw [s21]
      rfl
    · rw [snext, hm₂next]
    · intro b hb
      rw [sframe b (by show b ≠ m.next; omega) (by show b ≠ m.next + 1; omega),
        hlookOld b hb]
    · exact ⟨⟨default, none⟩, [], slookA, rfl, rfl, by intro c hc; simp at hc⟩

end SLL

theorem cellIter_eq (cs : List (Nat × Node α)) (i : Nat) :
    cellIter cs i = (cs[i]?).map Prod.fst := by
  unfold cellIter
  rw [← List.head?_drop]
  cases cs.drop i <;> rfl

theorem advance_sentinel {m : Heap α} {L : SLL} {sd : Node α}
    {cs : List (Nat × Node α)}
    (hsd : m.lookup L.headAddr = some sd)
    (hcs : chainCells m sd.next_node L.size_ = some cs) :
    ∀ idx : Nat, idx ≤ L.size_ →
      advance m (SLL.before_begin L) idx =
        some (match idx with
          | 0 => some L.headAddr
          | j + 1 => cellIter cs j) := by
  intro idx hidx
  cases idx with
  | zero => rfl
  | succ j =>
    have h1 : advance m (SLL.before_begin L) (j + 1) = advance m sd.next_node j := by
      simp [advance, iterInc, SLL.before_begin, hsd]
    rw [h1, advance_chain hcs (by omega)]

/-- Heap surgery of `InsertAfter` at a chain node: if the chain from `s`
consists of `pre`, the node at `p`, then `post`, then after allocating the
new node and relinking `p`, the chain from `s` has the new node spliced in
right after `p` and is one longer. -/
theorem chainCells_insert {m : Heap α} {p : Nat} {pnd : Node α} (v : α)
    (hg : m.good = true) (hp : m.lookup p = some pnd) :
    ∀ {pre : List (Nat × Node α)} {post : List (Nat × Node α)} {s : Iter} {n : Nat},
      chainCells m s n = some (pre ++ (p, pnd) :: post) →
      chainCells ((m.alloc ⟨v, pnd.next_node⟩).2.write p ⟨pnd.value, some m.next⟩) s
          (n + 1) =
        some (pre ++ (p, ⟨pnd.value, some m.next⟩) ::
          (m.next, ⟨v, pnd.next_node⟩) :: post) := by
  have hplt : p < m.next := Heap.lookup_lt_of_good m _ _ hg hp
  have hlook : ∀ b,
      ((m.alloc ⟨v, pnd.next_node⟩).2.write p ⟨pnd.value, some m.next⟩).lookup b =
        if p = b then some ⟨pnd.value, some m.next⟩
        else if m.next = b then some ⟨v, pnd.next_node⟩
        else m.lookup b := by
    intro b
    rw [Heap.lookup_write, Heap.lookup_alloc]
  intro pre
  induction pre with
  | nil =>
    intro post s n h
    cases n with
    | zero =>
      obtain ⟨-, h2⟩ := chainCells_zero_inv h
      simp at h2
    | succ k =>
      have hnodup := chainCells_nodup h
      obtain ⟨p₀, nd₀, cs₂, rfl, hnd₀, hcs₂, hcons⟩ := chainCells_succ_inv h
      simp only [List.nil_append, List.cons.injEq, Prod.mk.injEq] at hcons
      obtain ⟨⟨rfl, rfl⟩, rfl⟩ := hcons
      simp only [List.nil_append, List.map_cons, List.nodup_cons] at hnodup
      have htail : chainCells
          ((m.alloc ⟨v, pnd.next_node⟩).2.write p ⟨pnd.value, some m.next⟩)
          pnd.next_node k = some post := by
        refine chainCells_congr hcs₂ ?_
        intro c hc
        rw [hlook c.1]
        have h1 : c.1 ≠ p := by
          intro hcp
          exact hnodup.1 (List.mem_map.2 ⟨c, hc, hcp⟩)
        have h2 : c.1 < m.next := chainCells_lt_next hg hcs₂ c hc
        rw [if_neg (fun h => h1 h.symm), if_neg (by omega)]
      have h1 : ((m.alloc ⟨v, pnd.next_node⟩).2.write p
          ⟨pnd.value, some m.next⟩).lookup p = some ⟨pnd.value, some m.next⟩ := by
        rw [hlook p, if_pos rfl]
      have h2 : ((m.alloc ⟨v, pnd.next_node⟩).2.write p
          ⟨pnd.value, some m.next⟩).lookup m.next = some ⟨v, pnd.next_node⟩ := by
        rw [hlook m.next, if_neg (by omega), if_pos rfl]
      simp [chainCells, h1, h2, htail]
  | cons q pre₂ ih =>
    intro post s n h
    cases n with
    | zero =>
      obtain ⟨-, h2⟩ := chainCells_zero_inv h
      simp at h2
    | succ k =>
      have hnodup := chainCells_nodup h
      obtain ⟨q₀, nd₀, cs₂, rfl, hnd₀, hcs₂, hcons⟩ := chainCells_succ_inv h
      simp only [List.cons_append, List.cons.injEq] at hcons
      obtain ⟨rfl, rfl⟩ := hcons
      simp only [List.cons_append, List.map_cons, List.nodup_cons] at hnodup
      have hqp : q₀ ≠ p := by
        intro hq
        refine hnodup.1 (List.mem_map.2 ⟨(p, pnd), ?_, hq.symm⟩)
        exact List.mem_append_right _ (List.mem_cons_self _ _)
      have hq₂ : ((m.alloc ⟨v, pnd.next_node⟩).2.write p
          ⟨pnd.value, some m.next⟩).lookup q₀ = some nd₀ := by
        have hqlt : q₀ < m.next := Heap.lookup_lt_of_good m _ _ hg hnd₀
        rw [hlook q₀, if_neg (fun h => hqp h.symm), if_neg (by omega)]
        exact hnd₀
      have := ih hcs₂
      simp [chainCells, hq₂, this]

/-- Heap surgery of `EraseAfter` at a chain node: if the chain from `s`
consists of `pre`, the node at `p`, the node at `d`, then `post`, then after
relinking `p` around `d` and freeing `d`, the chain from `s` has `d`'s cell
removed and is one shorter. -/
theorem chainCells_erase {m : Heap α} {p d : Nat} {pnd dnd : Node α} :
    ∀ {pre : List (Nat × Node α)} {post : List (Nat × Node α)} {s : Iter} {n : Nat},
      chainCells m s n = some (pre ++ (p, pnd) :: (d, dnd) :: post) →
      chainCells ((m.write p ⟨pnd.value, dnd.next_node⟩).free d) s (n - 1) =
        some (pre ++ (p, ⟨pnd.value, dnd.next_node⟩) :: post) := by
  have hlook : ∀ b,
      ((m.write p ⟨pnd.value, dnd.next_node⟩).free d).lookup b =
        if d = b then none
        else if p = b then some ⟨pnd.value, dnd.next_node⟩
        else m.lookup b := by
    intro b
    rw [Heap.lookup_free, Heap.lookup_write]
  intro pre
  induction pre with
  | nil =>
    intro post s n h
    cases n with
    | zero =>
      obtain ⟨-, h2⟩ := chainCells_zero_inv h
      simp at h2
    | succ k =>
      have hnodup := chainCells_nodup h
      obtain ⟨p₀, nd₀, cs₂, rfl, hnd₀, hcs₂, hcons⟩ := chainCells_succ_inv h
      simp only [List.nil_append, List.cons.injEq, Prod.mk.injEq] at hcons
      obtain ⟨⟨rfl, rfl⟩, rfl⟩ := hcons
      simp only [List.nil_append, List.map_cons, List.nodup_cons, List.mem_cons] at hnodup
      have hpd : p ≠ d := fun hh => hnodup.1 (Or.inl hh)
      cases k with
      | zero =>
        obtain ⟨-, h2⟩ := chainCells_zero_inv hcs₂
        simp at h2
      | succ k₂ =>
        obtain ⟨d₀, dnd₀, cs₃, hnext, hnd₁, hcs₃, hcons₂⟩ := chainCells_succ_inv hcs₂
        simp only [List.cons.injEq, Prod.mk.injEq] at hcons₂
        obtain ⟨⟨rfl, rfl⟩, rfl⟩ := hcons₂
        have h1 : ((m.write p ⟨pnd.value, dnd.next_node⟩).free d).lookup p =
            some ⟨pnd.value, dnd.next_node⟩ := by
          rw [hlook p, if_neg (fun hh => hpd hh.symm), if_pos rfl]
        have htail : chainCells ((m.write p ⟨pnd.value, dnd.next_node⟩).free d)
            dnd.next_node k₂ = some post := by
          refine chainCells_congr hcs₃ ?_
          intro c hc
          rw [hlook c.1]
          have hcd : c.1 ≠ d := by
            intro hcd
            exact hnodup.2.1 (List.mem_map.2 ⟨c, hc, hcd⟩)
          have hcp : c.1 ≠ p := by
            intro hcp
            exact hnodup.1 (Or.inr (List.mem_map.2 ⟨c, hc, hcp⟩))
          rw [if_neg (fun hh => hcd hh.symm), if_neg (fun hh => hcp hh.symm)]
        simp [chainCells, hnext, h1, htail]
  | cons q pre₂ ih =>
    intro post s n h
    cases n with
    | zero =>
      obtain ⟨-, h2⟩ := chainCells_zero_inv h
      simp at h2
    | succ k =>
      have hnodup := chainCells_nodup h
      obtain ⟨q₀, nd₀, cs₂, rfl, hnd₀, hcs₂, hcons⟩ := chainCells_succ_inv h
      simp only [List.cons_append, List.cons.injEq] at hcons
      obtain ⟨rfl, rfl⟩ := hcons
      simp only [List.cons_append, List.map_cons, List.nodup_cons, List.map_append,
        List.mem_append, List.mem_cons] at hnodup
      have hqd : q₀ ≠ d := fun hh => hnodup.1 (Or.inr (Or.inr (Or.inl hh)))
      have hqp : q₀ ≠ p := fun hh => hnodup.1 (Or.inr (Or.inl hh))
      have hq₂ : ((m.write p ⟨pnd.value, dnd.next_node⟩).free d).lookup q₀ =
          some nd₀ := by
        rw [hlook q₀, if_neg (fun hh => hqd hh.symm), if_neg (fun hh => hqp hh.symm)]
        exact hnd₀
      cases k with
      | zero =>
        obtain ⟨-, h2⟩ := chainCells_zero_inv hcs₂
        simp at h2
      | succ k₃ =>
        have h2 : chainCells ((m.write p ⟨pnd.value, dnd.next_node⟩).free d)
            nd₀.next_node k₃ =
            some (pre₂ ++ (p, ⟨pnd.value, dnd.next_node⟩) :: post) := ih hcs₂
        show chainCells ((m.write p ⟨pnd.value, dnd.next_node⟩).free d)
          (some q₀) (k₃ + 1) =
          some ((q₀, nd₀) :: (pre₂ ++ (p, ⟨pnd.value, dnd.next_node⟩) :: post))
        simp [chainCells, hq₂, h2]

namespace SLL

/-- Specification of the `Clear()` loop: with fuel at least the chain
length it terminates, frees exactly the chain cells, nulls the sentinel
link, and touches nothing else. -/
theorem clearLoop_spec :
    ∀ {n : Nat} {cs : List (Nat × Node α)} {m : Heap α} {L : SLL} {sd : Node α}
      {fuel : Nat},
      m.good = true → m.lookup L.headAddr = some sd →
      chainCells m sd.next_node n = some cs → n ≤ fuel →
      ∃ m₂, clearLoop m L fuel = some m₂ ∧ m₂.good = true ∧
        m₂.lookup L.headAddr = some ⟨sd.value, none⟩ ∧ m₂.next = m.next ∧
        (∀ b, b ≠ L.headAddr → (∀ c ∈ cs, b ≠ c.1) → m₂.lookup b = m.lookup b) := by
  intro n
  induction n with
  | zero =>
    intro cs m L sd fuel hg hsd hcs hfuel
    obtain ⟨hnone, rfl⟩ := chainCells_zero_inv hcs
    have hh : headNext m L = none := by
      rw [headNext_eq hsd, hnone]
    have hstop : clearLoop m L fuel = some m := by
      cases fuel with
      | zero => simp [clearLoop, hh]
      | succ f => simp [clearLoop, hh]
    have hsd2 : sd = ⟨sd.value, none⟩ := by
      cases sd
      simp_all
    exact ⟨m, hstop, hg, by rw [← hsd2]; exact hsd, rfl, fun b _ _ => rfl⟩
  | succ k ih =>
    intro cs m L sd fuel hg hsd hcs hfuel
    obtain ⟨h₀, hnd, cs₂, hstart, hlookh, hcs₂, rfl⟩ := chainCells_succ_inv hcs
    have hnodup := chainCells_nodup hcs
    simp only [List.map_cons, List.nodup_cons] at hnodup
    have hsent := sentinel_not_in_chain hsd hcs
    have hnh : h₀ ≠ L.headAddr := hsent (h₀, hnd) (List.mem_cons_self _ _)
    have hhlt : h₀ < m.next := Heap.lookup_lt_of_good m _ _ hg hlookh
    have hslt : L.headAddr < m.next := Heap.lookup_lt_of_good m _ _ hg hsd
    cases fuel with
    | zero => omega
    | succ f =>
      have hh : headNext m L = some h₀ := by
        rw [headNext_eq hsd, hstart]
      have hfreesd : (m.free h₀).lookup L.headAddr = some sd := by
        rw [Heap.lookup_free, if_neg hnh]
        exact hsd
      have hstep : clearLoop m L (f + 1) =
          clearLoop ((m.free h₀).write L.headAddr ⟨sd.value, hnd.next_node⟩) L f := by
        show (match headNext m L with
          | none => some m
          | some h =>
            match m.lookup h with
            | none => none
            | some hnd => clearLoop (writeHeadNext (m.free h) L hnd.next_node) L f) = _
        rw [hh]
        show (match m.lookup h₀ with
          | none => none
          | some hnd => clearLoop (writeHeadNext (m.free h₀) L hnd.next_node) L f) = _
        rw [hlookh]
        show clearLoop (writeHeadNext (m.free h₀) L hnd.next_node) L f = _
        rw [writeHeadNext_eq hfreesd]
      have hlook₂ : ∀ b, ((m.free h₀).write L.headAddr
          ⟨sd.value, hnd.next_node⟩).lookup b =
          if L.headAddr = b then some ⟨sd.value, hnd.next_node⟩
          else if h₀ = b then none else m.lookup b := by
        intro b
        rw [Heap.lookup_write, Heap.lookup_free]
      have hg₂ : ((m.free h₀).write L.headAddr ⟨sd.value, hnd.next_node⟩).good = true :=
        Heap.good_write _ _ _ (Heap.good_free _ _ hg) (by simpa [Heap.free] using hslt)
      have hsd₂ : ((m.free h₀).write L.headAddr
          ⟨sd.value, hnd.next_node⟩).lookup L.headAddr =
          some ⟨sd.value, hnd.next_node⟩ := by
        rw [hlook₂, if_pos rfl]
      have hcs₂b : chainCells ((m.free h₀).write L.headAddr
          ⟨sd.value, hnd.next_node⟩) hnd.next_node k = some cs₂ := by
        refine chainCells_congr hcs₂ ?_
        intro c hc
        rw [hlook₂ c.1]
        have hc1 : c.1 ≠ L.headAddr := hsent c (List.mem_cons_of_mem _ hc)
        have hc2 : c.1 ≠ h₀ := by
          intro hh2
          exact hnodup.1 (List.mem_map.2 ⟨c, hc, hh2⟩)
        rw [if_neg (fun hh2 => hc1 hh2.symm), if_neg (fun hh2 => hc2 hh2.symm)]
      obtain ⟨m₂, hloop, hg₃, hsd₃, hnext₃, hframe₃⟩ :=
        ih hg₂ hsd₂ hcs₂b (show k ≤ f by omega)
      refine ⟨m₂, ?_, hg₃, hsd₃, ?_, ?_⟩
      · rw [hstep]
        exact hloop
      · rw [hnext₃]
        rfl
      · intro b hb hbc
        rw [hframe₃ b hb (fun c hc => hbc c (List.mem_cons_of_mem _ hc)), hlook₂ b,
          if_neg (fun hh2 => hb hh2.symm),
          if_neg (fun hh2 => hbc (h₀, hnd) (List.mem_cons_self _ _) hh2.symm)]

end SLL

theorem chainCells_start {m : Heap α} {a : Iter} {n : Nat}
    {cs : List (Nat × Node α)} (h : chainCells m a n = some cs) :
    a = cellIter cs 0 := by
  cases n with
  | zero =>
    obtain ⟨rfl, rfl⟩ := chainCells_zero_inv h
    rfl
  | succ k =>
    obtain ⟨p, nd, cs₂, rfl, -, -, rfl⟩ := chainCells_succ_inv h
    rfl

namespace SLL

/-- Specification of `InsertAfter` at the `before_begin` position: a fresh
node holding `v` becomes the new first cell, the sentinel is relinked, the
count grows by one, and the returned iterator holds the fresh node's
address. -/
theorem InsertAfter_bb_spec {m : Heap α} {L : SLL} {sd : Node α}
    {cs : List (Nat × Node α)} (v : α)
    (hg : m.good = true) (hsd : m.lookup L.headAddr = some sd)
    (hcs : chainCells m sd.next_node L.size_ = some cs) :
    ∃ m₂, InsertAfter m L (some L.headAddr) v =
        some (m₂, ⟨L.headAddr, L.size_ + 1⟩, some m.next) ∧
      m₂.good = true ∧ m₂.next = m.next + 1 ∧
      m₂.lookup L.headAddr = some ⟨sd.value, some m.next⟩ ∧
      chainCells m₂ (some m.next) (L.size_ + 1) =
        some ((m.next, ⟨v, sd.next_node⟩) :: cs) ∧
      m₂.lookup m.next = some ⟨v, sd.next_node⟩ ∧
      (∀ b, b ≠ L.headAddr → b ≠ m.next → m₂.lookup b = m.lookup b) := by
  have hslt : L.headAddr < m.next := Heap.lookup_lt_of_good m _ _ hg hsd
  refine ⟨(m.alloc ⟨v, sd.next_node⟩).2.write L.headAddr ⟨sd.value, some m.next⟩,
    ?_, ?_, rfl, ?_, ?_, ?_, ?_⟩
  · show (match m.lookup L.headAddr with
      | none => none
      | some pnd =>
        some ((m.alloc ⟨v, pnd.next_node⟩).2.write L.headAddr
            ⟨pnd.value, some (m.alloc ⟨v, pnd.next_node⟩).1⟩,
          (⟨L.headAddr, L.size_ + 1⟩ : SLL),
          some (m.alloc ⟨v, pnd.next_node⟩).1)) = _
    rw [hsd]
    rfl
  · exact Heap.good_write _ _ _ (Heap.good_alloc _ _ hg) (by simp [Heap.alloc]; omega)
  · rw [Heap.lookup_write, if_pos rfl]
  · have htail : chainCells ((m.alloc ⟨v, sd.next_node⟩).2.write L.headAddr
        ⟨sd.value, some m.next⟩) sd.next_node L.size_ = some cs := by
      refine chainCells_congr hcs ?_
      intro c hc
      rw [Heap.lookup_write, Heap.lookup_alloc]
      have h1 : c.1 ≠ L.headAddr := sentinel_not_in_chain hsd hcs c hc
      have h2 : c.1 < m.next := chainCells_lt_next hg hcs c hc
      rw [if_neg (fun hh => h1 hh.symm), if_neg (by omega)]
    have hnew : ((m.alloc ⟨v, sd.next_node⟩).2.write L.headAddr
        ⟨sd.value, some m.next⟩).lookup m.next = some ⟨v, sd.next_node⟩ := by
      rw [Heap.lookup_write, if_neg (by omega), Heap.lookup_alloc, if_pos rfl]
    simp [chainCells, hnew, htail]
  · rw [Heap.lookup_write, if_neg (by omega), Heap.lookup_alloc, if_pos rfl]
  · intro b hb1 hb2
    rw [Heap.lookup_write, if_neg (fun hh => hb1 hh.symm), Heap.lookup_alloc,
      if_neg (fun hh => hb2 hh.symm)]

/-- Specification of `InsertAfter` at a chain node (the cell `(p, pnd)` at
some split of the chain): the fresh node is spliced in immediately after
`p`, the count grows by one, the sentinel and all other cells are
untouched, and the returned iterator holds the fresh node's address. -/
theorem InsertAfter_chain_spec {m : Heap α} {L : SLL} {sd : Node α}
    {cs pre post : List (Nat × Node α)} {p : Nat} {pnd : Node α} (v : α)
    (hg : m.good = true) (hsd : m.lookup L.headAddr = some sd)
    (hcs : chainCells m sd.next_node L.size_ = some cs)
    (hsplit : cs = pre ++ (p, pnd) :: post) :
    ∃ m₂, InsertAfter m L (some p) v =
        some (m₂, ⟨L.headAddr, L.size_ + 1⟩, some m.next) ∧
      m₂.good = true ∧ m₂.next = m.next + 1 ∧
      m₂.lookup L.headAddr = some sd ∧
      chainCells m₂ sd.next_node (L.size_ + 1) =
        some (pre ++ (p, ⟨pnd.value, some m.next⟩) ::
          (m.next, ⟨v, pnd.next_node⟩) :: post) ∧
      m₂.lookup m.next = some ⟨v, pnd.next_node⟩ ∧
      (∀ b, b ≠ p → b ≠ m.next → m₂.lookup b = m.lookup b) := by
  subst hsplit
  have hmem : (p, pnd) ∈ pre ++ (p, pnd) :: post :=
    List.mem_append_right _ (List.mem_cons_self _ _)
  have hp : m.lookup p = some pnd := chainCells_lookup hcs hmem
  have hplt : p < m.next := Heap.lookup_lt_of_good m _ _ hg hp
  have hslt : L.headAddr < m.next := Heap.lookup_lt_of_good m _ _ hg hsd
  have hsp : p ≠ L.headAddr := sentinel_not_in_chain hsd hcs (p, pnd) hmem
  refine ⟨(m.alloc ⟨v, pnd.next_node⟩).2.write p ⟨pnd.value, some m.next⟩,
    ?_, ?_, rfl, ?_, ?_, ?_, ?_⟩
  · show (match m.lookup p with
      | none => none
      | some pnd =>
        some ((m.alloc ⟨v, pnd.next_node⟩).2.write p
            ⟨pnd.value, some (m.alloc ⟨v, pnd.next_node⟩).1⟩,
          (⟨L.headAddr, L.size_ + 1⟩ : SLL),
          some (m.alloc ⟨v, pnd.next_node⟩).1)) = _
    rw [hp]
    rfl
  · exact Heap.good_write _ _ _ (Heap.good_alloc _ _ hg) (by simp [Heap.alloc]; omega)
  · rw [Heap.lookup_write, if_neg hsp, Heap.lookup_alloc,
      if_neg (by omega)]
    exact hsd
  · exact chainCells_insert v hg hp hcs
  · rw [Heap.lookup_write, if_neg (by omega), Heap.lookup_alloc, if_pos rfl]
  · intro b hb1 hb2
    rw [Heap.lookup_write, if_neg (fun hh => hb1 hh.symm), Heap.lookup_alloc,
      if_neg (fun hh => hb2 hh.symm)]

/-- Inversion of a non-empty chain: the start points at the first cell,
whose node is live, and the remaining cells form a chain one shorter. -/
theorem chainCells_cons_inv {m : Heap α} {a : Iter} {n : Nat} {d : Nat}
    {dnd : Node α} {cs₂ : List (Nat × Node α)}
    (h : chainCells m a n = some ((d, dnd) :: cs₂)) :
    a = some d ∧ m.lookup d = some dnd ∧
      chainCells m dnd.next_node (n - 1) = some cs₂ ∧ n = cs₂.length + 1 := by
  cases n with
  | zero =>
    obtain ⟨-, h2⟩ := chainCells_zero_inv h
    simp at h2
  | succ k =>
    obtain ⟨d₀, dnd₀, cs₃, rfl, hd, hcs₃, hcons⟩ := chainCells_succ_inv h
    simp only [List.cons.injEq, Prod.mk.injEq] at hcons
    obtain ⟨⟨rfl, rfl⟩, rfl⟩ := hcons
    have hlen := chainCells_length h
    simp only [List.length_cons] at hlen
    exact ⟨rfl, hd, hcs₃, by omega⟩

/-- Specification of `EraseAfter` at the `before_begin` position on a
non-empty list: the first cell is unlinked and freed, the count shrinks by
one, and the returned iterator is the old second position (the end position
when the list had one element). -/
theorem EraseAfter_bb_spec {m : Heap α} {L : SLL} {sd : Node α}
    {d : Nat} {dnd : Node α} {cs₂ : List (Nat × Node α)}
    (hg : m.good = true) (hsd : m.lookup L.headAddr = some sd)
    (hcs : chainCells m sd.next_node L.size_ = some ((d, dnd) :: cs₂)) :
    ∃ m₂, EraseAfter m L (some L.headAddr) =
        some (m₂, ⟨L.headAddr, L.size_ - 1⟩, dnd.next_node) ∧
      m₂.good = true ∧ m₂.next = m.next ∧
      m₂.lookup L.headAddr = some ⟨sd.value, dnd.next_node⟩ ∧
      chainCells m₂ dnd.next_node (L.size_ - 1) = some cs₂ ∧
      dnd.next_node = cellIter cs₂ 0 ∧
      (∀ b, b ≠ L.headAddr → b ≠ d → m₂.lookup b = m.lookup b) := by
  have hslt : L.headAddr < m.next := Heap.lookup_lt_of_good m _ _ hg hsd
  obtain ⟨hstart, hd, hcs₃, hlen⟩ := chainCells_cons_inv hcs
  have hsent := sentinel_not_in_chain hsd hcs
  have hdh : d ≠ L.headAddr := hsent (d, dnd) (List.mem_cons_self _ _)
  have hnodup := chainCells_nodup hcs
  simp only [List.map_cons, List.nodup_cons] at hnodup
  have hm₂p : ((m.write L.headAddr ⟨sd.value, dnd.next_node⟩).free d).lookup
      L.headAddr = some ⟨sd.value, dnd.next_node⟩ := by
    rw [Heap.lookup_free, if_neg hdh, Heap.lookup_write, if_pos rfl]
  refine ⟨(m.write L.headAddr ⟨sd.value, dnd.next_node⟩).free d, ?_, ?_, rfl,
    hm₂p, ?_, chainCells_start hcs₃, ?_⟩
  · show (match m.lookup L.headAddr with
      | none => none
      | some pnd =>
        match pnd.next_node with
        | none => none
        | some d =>
          match m.lookup d with
          | none => none
          | some dnd =>
            match ((m.write L.headAddr ⟨pnd.value, dnd.next_node⟩).free d).lookup
                L.headAddr with
            | none => none
            | some pnd₂ =>
              some ((m.write L.headAddr ⟨pnd.value, dnd.next_node⟩).free d,
                (⟨L.headAddr, L.size_ - 1⟩ : SLL), pnd₂.next_node)) = _
    rw [hsd]
    show (match sd.next_node with
      | none => none
      | some d =>
        match m.lookup d with
        | none => none
        | some dnd =>
          match ((m.write L.headAddr ⟨sd.value, dnd.next_node⟩).free d).lookup
              L.headAddr with
          | none => none
          | some pnd₂ =>
            some ((m.write L.headAddr ⟨sd.value, dnd.next_node⟩).free d,
              (⟨L.headAddr, L.size_ - 1⟩ : SLL), pnd₂.next_node)) = _
    rw [hstart]
    show (match m.lookup d with
      | none => none
      | some dnd =>
        match ((m.write L.headAddr ⟨sd.value, dnd.next_node⟩).free d).lookup
            L.headAddr with
        | none => none
        | some pnd₂ =>
          some ((m.write L.headAddr ⟨sd.value, dnd.next_node⟩).free d,
            (⟨L.headAddr, L.size_ - 1⟩ : SLL), pnd₂.next_node)) = _
    rw [hd]
    show (match ((m.write L.headAddr ⟨sd.value, dnd.next_node⟩).free d).lookup
        L.headAddr with
      | none => none
      | some pnd₂ =>
        some ((m.write L.headAddr ⟨sd.value, dnd.next_node⟩).free d,
          (⟨L.headAddr, L.size_ - 1⟩ : SLL), pnd₂.next_node)) = _
    rw [hm₂p]
  · exact Heap.good_free _ _ (Heap.good_write _ _ _ hg hslt)
  · refine chainCells_congr hcs₃ ?_
    intro c hc
    have hc1 : c.1 ≠ L.headAddr := hsent c (List.mem_cons_of_mem _ hc)
    have hc2 : c.1 ≠ d := by
      intro hh
      exact hnodup.1 (List.mem_map.2 ⟨c, hc, hh⟩)
    rw [Heap.lookup_free, if_neg (fun hh => hc2 hh.symm), Heap.lookup_write,
      if_neg (fun hh => hc1 hh.symm)]
  · intro b hb1 hb2
    rw [Heap.lookup_free, if_neg (fun hh => hb2 hh.symm), Heap.lookup_write,
      if_neg (fun hh => hb1 hh.symm)]

end SLL

theorem chainCells_suffix {m : Heap α} :
    ∀ {xs ys : List (Nat × Node α)} {s : Iter} {n : Nat},
      chainCells m s n = some (xs ++ ys) →
      ∃ t k, k ≤ n ∧ chainCells m t k = some ys := by
  intro xs
  induction xs with
  | nil =>
    intro ys s n h
    exact ⟨s, n, Nat.le_refl _, h⟩
  | cons x xs ih =>
    intro ys s n h
    cases n with
    | zero =>
      obtain ⟨-, h2⟩ := chainCells_zero_inv h
      simp at h2
    | succ k =>
      obtain ⟨p, nd, cs₂, rfl, hnd, hcs₂, hcons⟩ := chainCells_succ_inv h
      simp only [List.cons_append, List.cons.injEq] at hcons
      obtain ⟨rfl, rfl⟩ := hcons
      obtain ⟨t, k₂, hk, hys⟩ := ih hcs₂
      exact ⟨t, k₂, Nat.le_succ_of_le hk, hys⟩

namespace SLL

/-- Specification of `EraseAfter` at a chain node `(p, pnd)` whose cell has
the successor cell `(d, dnd)`: the successor is unlinked and freed, the
count shrinks by one, the sentinel and all other cells are untouched, and
the returned iterator is the position that followed the removed node. -/
theorem EraseAfter_chain_spec {m : Heap α} {L : SLL} {sd : Node α}
    {cs pre post : List (Nat × Node α)} {p d : Nat} {pnd dnd : Node α}
    (hg : m.good = true) (hsd : m.lookup L.headAddr = some sd)
    (hcs : chainCells m sd.next_node L.size_ = some cs)
    (hsplit : cs = pre ++ (p, pnd) :: (d, dnd) :: post) :
    ∃ m₂, EraseAfter m L (some p) =
        some (m₂, ⟨L.headAddr, L.size_ - 1⟩, dnd.next_node) ∧
      m₂.good = true ∧ m₂.next = m.next ∧
      m₂.lookup L.headAddr = some sd ∧
      chainCells m₂ sd.next_node (L.size_ - 1) =
        some (pre ++ (p, ⟨pnd.value, dnd.next_node⟩) :: post) ∧
      dnd.next_node = cellIter post 0 ∧
      (∀ b, b ≠ p → b ≠ d → m₂.lookup b = m.lookup b) := by
  subst hsplit
  have hslt : L.headAddr < m.next := Heap.lookup_lt_of_good m _ _ hg hsd
  obtain ⟨t, k, -, hys⟩ := chainCells_suffix hcs
  obtain ⟨rfl, hp, hrest, -⟩ := chainCells_cons_inv hys
  obtain ⟨hpd, hd, htail2, -⟩ := chainCells_cons_inv hrest
  have hsent := sentinel_not_in_chain hsd hcs
  have hmemp : (p, pnd) ∈ pre ++ (p, pnd) :: (d, dnd) :: post :=
    List.mem_append_right _ (List.mem_cons_self _ _)
  have hmemd : (d, dnd) ∈ pre ++ (p, pnd) :: (d, dnd) :: post :=
    List.mem_append_right _ (List.mem_cons_of_mem _ (List.mem_cons_self _ _))
  have hph : p ≠ L.headAddr := hsent _ hmemp
  have hdhd : d ≠ L.headAddr := hsent _ hmemd
  have hnodup := chainCells_nodup hcs
  have hpd2 : p ≠ d := by
    have h2 := List.Nodup.sublist
      (List.Sublist.map Prod.fst (List.sublist_append_right pre _)) hnodup
    simp only [List.map_cons, List.nodup_cons, List.mem_cons] at h2
    exact fun hh => h2.1 (Or.inl hh)
  have hm₂p : ((m.write p ⟨pnd.value, dnd.next_node⟩).free d).lookup p =
      some ⟨pnd.value, dnd.next_node⟩ := by
    rw [Heap.lookup_free, if_neg (fun hh => hpd2 hh.symm), Heap.lookup_write,
      if_pos rfl]
  refine ⟨(m.write p ⟨pnd.value, dnd.next_node⟩).free d, ?_, ?_, rfl, ?_, ?_,
    chainCells_start htail2, ?_⟩
  · show (match m.lookup p with
      | none => none
      | some pnd =>
        match pnd.next_node with
        | none => none
        | some d =>
          match m.lookup d with
          | none => none
          | some dnd =>
            match ((m.write p ⟨pnd.value, dnd.next_node⟩).free d).lookup p with
            | none => none
            | some pnd₂ =>
              some ((m.write p ⟨pnd.value, dnd.next_node⟩).free d,
                (⟨L.headAddr, L.size_ - 1⟩ : SLL), pnd₂.next_node)) = _
    rw [hp]
    show (match pnd.next_node with
      | none => none
      | some d =>
        match m.lookup d with
        | none => none
        | some dnd =>
          match ((m.write p ⟨pnd.value, dnd.next_node⟩).free d).lookup p with
          | none => none
          | some pnd₂ =>
            some ((m.write p ⟨pnd.value, dnd.next_node⟩).free d,
              (⟨L.headAddr, L.size_ - 1⟩ : SLL), pnd₂.next_node)) = _
    rw [hpd]
    show (match m.lookup d with
      | none => none
      | some dnd =>
        match ((m.write p ⟨pnd.value, dnd.next_node⟩).free d).lookup p with
        | none => none
        | some pnd₂ =>
          some ((m.write p ⟨pnd.value, dnd.next_node⟩).free d,
            (⟨L.headAddr, L.size_ - 1⟩ : SLL), pnd₂.next_node)) = _
    rw [hd]
    show (match ((m.write p ⟨pnd.value, dnd.next_node⟩).free d).lookup p with
      | none => none
      | some pnd₂ =>
        some ((m.write p ⟨pnd.value, dnd.next_node⟩).free d,
          (⟨L.headAddr, L.size_ - 1⟩ : SLL), pnd₂.next_node)) = _
    rw [hm₂p]
  · exact Heap.good_free _ _ (Heap.good_write _ _ _ hg
      (Heap.lookup_lt_of_good m _ _ hg hp))
  · rw [Heap.lookup_free, if_neg hdhd, Heap.lookup_write, if_neg hph]
    exact hsd
  · exact chainCells_erase hcs
  · intro b hb1 hb2
    rw [Heap.lookup_free, if_neg (fun hh => hb2 hh.symm), Heap.lookup_write,
      if_neg (fun hh => hb1 hh.symm)]

/-- Specification of `PopFront` on a non-empty list: the first cell is
unlinked and freed and the count shrinks by one. -/
theorem PopFront_spec {m : Heap α} {L : SLL} {sd : Node α}
    {t : Nat} {tnd : Node α} {cs₂ : List (Nat × Node α)}
    (hg : m.good = true) (hsd : m.lookup L.headAddr = some sd)
    (hcs : chainCells m sd.next_node L.size_ = some ((t, tnd) :: cs₂)) :
    ∃ m₂, PopFront m L = some (m₂, ⟨L.headAddr, L.size_ - 1⟩) ∧
      m₂.good = true ∧ m₂.next = m.next ∧
      m₂.lookup L.headAddr = some ⟨sd.value, tnd.next_node⟩ ∧
      chainCells m₂ tnd.next_node (L.size_ - 1) = some cs₂ ∧
      (∀ b, b ≠ L.headAddr → b ≠ t → m₂.lookup b = m.lookup b) := by
  have hslt : L.headAddr < m.next := Heap.lookup_lt_of_good m _ _ hg hsd
  obtain ⟨hstart, ht, htail, -⟩ := chainCells_cons_inv hcs
  have hsent := sentinel_not_in_chain hsd hcs
  have hth : t ≠ L.headAddr := hsent (t, tnd) (List.mem_cons_self _ _)
  have hnodup := chainCells_nodup hcs
  simp only [List.map_cons, List.nodup_cons] at hnodup
  have hh : headNext m L = some t := by
    rw [headNext_eq hsd, hstart]
  refine ⟨(m.write L.headAddr ⟨sd.value, tnd.next_node⟩).free t, ?_, ?_, rfl, ?_, ?_, ?_⟩
  · show (match headNext m L with
      | none => none
      | some t =>
        match m.lookup t with
        | none => none
        | some tnd =>
          some ((writeHeadNext m L tnd.next_node).free t,
            (⟨L.headAddr, L.size_ - 1⟩ : SLL))) = _
    rw [hh]
    show (match m.lookup t with
      | none => none
      | some tnd =>
        some ((writeHeadNext m L tnd.next_node).free t,
          (⟨L.headAddr, L.size_ - 1⟩ : SLL))) = _
    rw [ht]
    show some ((writeHeadNext m L tnd.next_node).free t,
      (⟨L.headAddr, L.size_ - 1⟩ : SLL)) = _
    rw [writeHeadNext_eq hsd]
  · exact Heap.good_free _ _ (Heap.good_write _ _ _ hg hslt)
  · rw [Heap.lookup_free, if_neg hth, Heap.lookup_write, if_pos rfl]
  · refine chainCells_congr htail ?_
    intro c hc
    have hc1 : c.1 ≠ L.headAddr := hsent c (List.mem_cons_of_mem _ hc)
    have hc2 : c.1 ≠ t := by
      intro hh2
      exact hnodup.1 (List.mem_map.2 ⟨c, hc, hh2⟩)
    rw [Heap.lookup_free, if_neg (fun hh2 => hc2 hh2.symm), Heap.lookup_write,
      if_neg (fun hh2 => hc1 hh2.symm)]
  · intro b hb1 hb2
    rw [Heap.lookup_free, if_neg (fun hh2 => hb2 hh2.symm), Heap.lookup_write,
      if_neg (fun hh2 => hb1 hh2.symm)]

end SLL

/-- The embedded `std::equal` returns `true` on two chains of the same
length carrying the same values, when given fuel beyond the length. -/
theorem stdEqual_of_chains [DecidableEq α] {m : Heap α} :
    ∀ {n fuel : Nat} {s₁ s₂ : Iter} {cs₁ cs₂ : List (Nat × Node α)},
      chainCells m s₁ n = some cs₁ → chainCells m s₂ n = some cs₂ →
      cs₁.map (fun c => c.2.value) = cs₂.map (fun c => c.2.value) →
      n < fuel →
      stdEqual m fuel s₁ none s₂ none = some true := by
  intro n
  induction n with
  | zero =>
    intro fuel s₁ s₂ cs₁ cs₂ h₁ h₂ hv hfuel
    obtain ⟨rfl, rfl⟩ := chainCells_zero_inv h₁
    obtain ⟨rfl, rfl⟩ := chainCells_zero_inv h₂
    cases fuel with
    | zero => omega
    | succ f => simp [stdEqual]
  | succ k ih =>
    intro fuel s₁ s₂ cs₁ cs₂ h₁ h₂ hv hfuel
    obtain ⟨p₁, nd₁, csb₁, rfl, hnd₁, hcs₁, rfl⟩ := chainCells_succ_inv h₁
    obtain ⟨p₂, nd₂, csb₂, rfl, hnd₂, hcs₂, rfl⟩ := chainCells_succ_inv h₂
    simp only [List.map_cons, List.cons.injEq] at hv
    cases fuel with
    | zero => omega
    | succ f =>
      have hderef₁ : iterDeref m (some p₁) = some nd₁.value := by
        simp [iterDeref, hnd₁]
      have hderef₂ : iterDeref m (some p₂) = some nd₂.value := by
        simp [iterDeref, hnd₂]
      have hinc₁ : iterInc m (some p₁) = some nd₁.next_node := by
        simp [iterInc, hnd₁]
      have hinc₂ : iterInc m (some p₂) = some nd₂.next_node := by
        simp [iterInc, hnd₂]
      have hrec := ih hcs₁ hcs₂ hv.2 (show k < f by omega)
      simp [stdEqual, hderef₁, hderef₂, hinc₁, hinc₂, hv.1, hrec]

namespace SLL

/-- The embedded free `operator==` returns `true` on two distinct list
objects whose chains carry the same value sequences. -/
theorem opEq_true [DecidableEq α] {m : Heap α} {A B : SLL} {sa sb : Node α}
    {acs bcs : List (Nat × Node α)} {fuel : Nat}
    (hA : m.lookup A.headAddr = some sa) (hB : m.lookup B.headAddr = some sb)
    (hacs : chainCells m sa.next_node A.size_ = some acs)
    (hbcs : chainCells m sb.next_node B.size_ = some bcs)
    (hvals : acs.map (fun c => c.2.value) = bcs.map (fun c => c.2.value))
    (hAB : A.headAddr ≠ B.headAddr) (hfuel : A.size_ < fuel) :
    opEq m A B fuel = some true := by
  have hlen : acs.length = bcs.length := by
    have := congrArg List.length hvals
    simpa using this
  have hsize : A.size_ = B.size_ := by
    have l₁ := chainCells_length hacs
    have l₂ := chainCells_length hbcs
    omega
  have hbcs₂ : chainCells m sb.next_node A.size_ = some bcs := by
    rw [hsize]
    exact hbcs
  have he₁ : endIter m A = some none := (endIter_wf hA hacs).1
  have he₂ : endIter m B = some none := (endIter_wf hB hbcs).1
  have hb₁ : beginIter m A = some sa.next_node := by
    rw [beginIter_eq, headNext_eq hA]
  have hb₂ : beginIter m B = some sb.next_node := by
    rw [beginIter_eq, headNext_eq hB]
  unfold opEq
  rw [if_pos hAB, hb₁, he₁, hb₂, he₂]
  exact stdEqual_of_chains hacs hbcs₂ hvals hfuel

/-- Specification of the copy constructor's loop: running it down from `i`
pushes the first `i` values of `other` onto `temp`, allocating only fresh
nodes, writing only `temp`'s sentinel, and leaving `other` untouched. -/
theorem copyLoop_spec {other : SLL} {osd : Node α} {ocs : List (Nat × Node α)} :
    ∀ (i : Nat) {m : Heap α} {t : SLL} {tsd : Node α} {tcs : List (Nat × Node α)},
      m.good = true →
      m.lookup other.headAddr = some osd →
      chainCells m osd.next_node other.size_ = some ocs →
      m.lookup t.headAddr = some tsd →
      chainCells m tsd.next_node t.size_ = some tcs →
      t.headAddr ≠ other.headAddr →
      (∀ c ∈ ocs, c.1 ≠ t.headAddr) →
      i ≤ other.size_ →
      ∃ m₃ temp₃, copyLoop m other t i = some (m₃, temp₃) ∧
        temp₃ = ⟨t.headAddr, t.size_ + i⟩ ∧
        m₃.good = true ∧ m.next ≤ m₃.next ∧
        (∀ b, b < m.next → b ≠ t.headAddr → m₃.lookup b = m.lookup b) ∧
        ∃ tsd₃ tcs₃, m₃.lookup t.headAddr = some tsd₃ ∧ tsd₃.value = tsd.value ∧
          chainCells m₃ tsd₃.next_node (t.size_ + i) = some tcs₃ ∧
          tcs₃.map (fun c => c.2.value) =
            (ocs.map (fun c => c.2.value)).take i ++ tcs.map (fun c => c.2.value) ∧
          (∀ c ∈ tcs₃, c.1 ∈ tcs.map Prod.fst ∨ m.next ≤ c.1) := by
  intro i
  induction i with
  | zero =>
    intro m t tsd tcs hg ho hocs ht htcs hto hot _
    refine ⟨m, t, rfl, rfl, hg, Nat.le_refl _, fun b _ _ => rfl,
      tsd, tcs, ht, rfl, htcs, by simp, ?_⟩
    intro c hc
    exact Or.inl (List.mem_map.2 ⟨c, hc, rfl⟩)
  | succ i ih =>
    intro m t tsd tcs hg ho hocs ht htcs hto hot hile
    have holt : other.headAddr < m.next := Heap.lookup_lt_of_good m _ _ hg ho
    have hlen : ocs.length = other.size_ := chainCells_length hocs
    have hilen : i < ocs.length := by omega
    have hb : beginIter m other = some osd.next_node := by
      rw [beginIter_eq, headNext_eq ho]
    have hadv : advance m osd.next_node i = some (some (ocs.get ⟨i, hilen⟩).1) := by
      rw [advance_chain hocs (by omega), cellIter_eq,
        List.getElem?_eq_getElem hilen]
      rfl
    have hcmem : ocs.get ⟨i, hilen⟩ ∈ ocs := List.get_mem ocs i hilen
    have hclook : m.lookup (ocs.get ⟨i, hilen⟩).1 = some (ocs.get ⟨i, hilen⟩).2 :=
      chainCells_lookup hocs hcmem
    have hderef : iterDeref m (some (ocs.get ⟨i, hilen⟩).1) =
        some (ocs.get ⟨i, hilen⟩).2.value := by
      show (m.lookup (ocs.get ⟨i, hilen⟩).1).map (fun nd => nd.value) = _
      rw [hclook]
      rfl
    obtain ⟨p2, pg, pnext, psd, pchain, pframe⟩ :=
      PushFront_spec (ocs.get ⟨i, hilen⟩).2.value hg ht htcs
    have hstep : copyLoop m other t (i + 1) =
        copyLoop (PushFront m t (ocs.get ⟨i, hilen⟩).2.value).1 other
          (PushFront m t (ocs.get ⟨i, hilen⟩).2.value).2 i := by
      show (match beginIter m other with
        | none => none
        | some b =>
          match advance m b i with
          | none => none
          | some it =>
            match iterDeref m it with
            | none => none
            | some v =>
              copyLoop (PushFront m t v).1 other (PushFront m t v).2 i) = _
      rw [hb]
      show (match advance m osd.next_node i with
        | none => none
        | some it =>
          match iterDeref m it with
          | none => none
          | some v =>
            copyLoop (PushFront m t v).1 other (PushFront m t v).2 i) = _
      rw [hadv]
      show (match iterDeref m (some (ocs.get ⟨i, hilen⟩).1) with
        | none => none
        | some v =>
          copyLoop (PushFront m t v).1 other (PushFront m t v).2 i) = _
      rw [hderef]
    -- hypotheses of the induction hypothesis, in the pushed heap
    have ho₁ : (PushFront m t (ocs.get ⟨i, hilen⟩).2.value).1.lookup
        other.headAddr = some osd := by
      rw [pframe other.headAddr (fun hh => hto hh.symm) (by omega)]
      exact ho
    have hocs₁ : chainCells (PushFront m t (ocs.get ⟨i, hilen⟩).2.value).1
        osd.next_node other.size_ = some ocs := by
      refine chainCells_congr hocs ?_
      intro c hc
      have hc2 : c.1 < m.next := chainCells_lt_next hg hocs c hc
      rw [pframe c.1 (hot c hc) (by omega)]
    have ht₁ : (PushFront m t (ocs.get ⟨i, hilen⟩).2.value).1.lookup
        (SLL.mk t.headAddr (t.size_ + 1)).headAddr =
        some ⟨tsd.value, some m.next⟩ := psd
    have htcs₁ : chainCells (PushFront m t (ocs.get ⟨i, hilen⟩).2.value).1
        (Node.next_node ⟨tsd.value, some m.next⟩)
        (SLL.mk t.headAddr (t.size_ + 1)).size_ =
        some ((m.next, ⟨(ocs.get ⟨i, hilen⟩).2.value, tsd.next_node⟩) :: tcs) := pchain
    obtain ⟨m₃, temp₃, hloop, ht3, hg₃, hnext₃, hframe₃, tsd₃, tcs₃, hsd₃, hval₃,
        hchain₃, hvals₃, hfresh₃⟩ :=
      ih pg ho₁ hocs₁ ht₁ htcs₁ hto (fun c hc => hot c hc) (by omega)
    have hsz : t.size_ + 1 + i = t.size_ + (i + 1) := by omega
    refine ⟨m₃, temp₃, ?_, ?_, hg₃, ?_, ?_, tsd₃, tcs₃, hsd₃, hval₃, ?_, ?_, ?_⟩
    · rw [hstep, p2]
      exact hloop
    · rw [ht3]
      simp only [hsz]
    · rw [pnext] at hnext₃
      omega
    · intro b hb1 hb2
      rw [hframe₃ b (by omega) hb2, pframe b hb2 (by omega)]
    · show chainCells m₃ tsd₃.next_node (t.size_ + (i + 1)) = some tcs₃
      rw [← hsz]
      exact hchain₃
    · rw [hvals₃]
      have hgm : (List.map (fun c => c.2.value) ocs)[i]? =
          some (ocs.get ⟨i, hilen⟩).2.value := by
        rw [List.getElem?_map, List.getElem?_eq_getElem hilen]
        rfl
      rw [List.take_succ, hgm]
      simp
    · intro c hc
      rcases hfresh₃ c hc with hmem | hge
      · simp only [List.map_cons, List.mem_cons] at hmem
        rcases hmem with hmem | hmem
        · exact Or.inr (by omega)
        · exact Or.inl hmem
      · rw [pnext] at hge
        exact Or.inr (by omega)

/-- Specification of the copy constructor: it deep-copies `other` into a
new object whose sentinel and chain nodes are all freshly allocated (hence
storage-independent of `other`), preserving the value sequence and count,
and leaves every pre-existing heap cell untouched. -/
theorem copyCtor_spec [Inhabited α] {m : Heap α} {other : SLL} {osd : Node α}
    {ocs : List (Nat × Node α)}
    (hg : m.good = true) (ho : m.lookup other.headAddr = some osd)
    (hocs : chainCells m osd.next_node other.size_ = some ocs) :
    ∃ m₄ L₂, copyCtor m other = some (m₄, L₂) ∧
      L₂ = ⟨m.next, other.size_⟩ ∧
      m₄.good = true ∧ m.next + 2 ≤ m₄.next ∧
      (∀ b, b < m.next → m₄.lookup b = m.lookup b) ∧
      ∃ sd₂ cs₂, m₄.lookup m.next = some sd₂ ∧
        chainCells m₄ sd₂.next_node other.size_ = some cs₂ ∧
        cs₂.map (fun c => c.2.value) = ocs.map (fun c => c.2.value) ∧
        (∀ c ∈ cs₂, m.next + 2 ≤ c.1) := by
  have holt : other.headAddr < m.next := Heap.lookup_lt_of_good m _ _ hg ho
  have hg₁ : ((m.alloc (⟨default, none⟩ : Node α)).2).good = true := Heap.good_alloc _ _ hg
  set m₂ := ((m.alloc (⟨default, none⟩ : Node α)).2.alloc (⟨default, none⟩ : Node α)).2
    with hm₂def
  have hg₂ : m₂.good = true := Heap.good_alloc _ _ hg₁
  have hm₂next : m₂.next = m.next + 2 := rfl
  have hlookA : m₂.lookup m.next = some ⟨default, none⟩ := by
    show ((m.alloc (⟨default, none⟩ : Node α)).2.alloc
      (⟨default, none⟩ : Node α)).2.lookup m.next = _
    rw [Heap.lookup_alloc, if_neg (by show ¬ (m.next + 1 = m.next); omega),
      Heap.lookup_alloc, if_pos rfl]
  have hlookB : m₂.lookup (m.next + 1) = some ⟨default, none⟩ := by
    show ((m.alloc (⟨default, none⟩ : Node α)).2.alloc
      (⟨default, none⟩ : Node α)).2.lookup (m.next + 1) = _
    rw [Heap.lookup_alloc,
      if_pos (show (m.alloc (⟨default, none⟩ : Node α)).2.next = m.next + 1 from rfl)]
  have hlookOld : ∀ b, b < m.next → m₂.lookup b = m.lookup b := by
    intro b hb
    show ((m.alloc (⟨default, none⟩ : Node α)).2.alloc
      (⟨default, none⟩ : Node α)).2.lookup b = _
    rw [Heap.lookup_alloc, if_neg (by show ¬ (m.next + 1 = b); omega),
      Heap.lookup_alloc, if_neg (by show ¬ (m.next = b); omega)]
  have ho₂ : m₂.lookup other.headAddr = some osd := by
    rw [hlookOld other.headAddr holt]
    exact ho
  have hocs₂ : chainCells m₂ osd.next_node other.size_ = some ocs := by
    refine chainCells_congr hocs ?_
    intro c hc
    exact hlookOld c.1 (chainCells_lt_next hg hocs c hc)
  obtain ⟨m₃, temp₃, hloop, ht3, hg₃, hnext₃, hframe₃, tsd₃, tcs₃, hsd₃, hval₃,
      hchain₃, hvals₃, hfresh₃⟩ :=
    copyLoop_spec other.size_ (m := m₂) (t := ⟨m.next + 1, 0⟩)
      hg₂ ho₂ hocs₂ hlookB rfl
      (by show m.next + 1 ≠ other.headAddr; omega)
      (fun c hc => by
        have := chainCells_lt_next hg hocs c hc
        show c.1 ≠ m.next + 1
        omega)
      (Nat.le_refl _)
  have hfresh₄ : ∀ c ∈ tcs₃, m.next + 2 ≤ c.1 := by
    intro c hc
    rcases hfresh₃ c hc with hmem | hge
    · simp at hmem
    · rw [hm₂next] at hge
      exact hge
  have hstep : copyCtor m other =
      some ((swap m₃ ⟨m.next, 0⟩ temp₃).1, (swap m₃ ⟨m.next, 0⟩ temp₃).2.1) := by
    unfold copyCtor
    show (match copyLoop m₂ other ⟨m.next + 1, 0⟩ other.GetSize with
      | none => none
      | some r₃ => some ((swap r₃.1 (⟨m.next, 0⟩ : SLL) r₃.2).1,
          (swap r₃.1 (⟨m.next, 0⟩ : SLL) r₃.2).2.1)) = _
    rw [show other.GetSize = other.size_ from rfl, hloop]
  have hsdA : m₃.lookup m.next = some ⟨default, none⟩ := by
    rw [hframe₃ m.next (by omega) (by show m.next ≠ m.next + 1; omega)]
    exact hlookA
  rw [ht3] at hstep
  obtain ⟨sg, snext, slookA, slookB, sframe, s21, s22⟩ :=
    swap_spec (A := ⟨m.next, 0⟩) (B := ⟨m.next + 1, 0 + other.size_⟩)
      hg₃ hsdA hsd₃
      (by show m.next ≠ m.next + 1; omega)
  refine ⟨(swap m₃ ⟨m.next, 0⟩ ⟨m.next + 1, 0 + other.size_⟩).1,
    (swap m₃ ⟨m.next, 0⟩ ⟨m.next + 1, 0 + other.size_⟩).2.1, hstep, ?_, sg, ?_, ?_, ?_⟩
  · rw [s21]
    show (⟨m.next, 0 + other.size_⟩ : SLL) = ⟨m.next, other.size_⟩
    simp
  · rw [snext]
    rw [hm₂next] at hnext₃
    omega
  · intro b hb
    rw [sframe b (by show b ≠ m.next; omega) (by show b ≠ m.next + 1; omega),
      hframe₃ b (by rw [hm₂next]; omega) (by show b ≠ m.next + 1; omega),
      hlookOld b hb]
  · have hvals₄ : tcs₃.map (fun c => c.2.value) = ocs.map (fun c => c.2.value) := by
      have hlen2 : (List.map (fun c => c.2.value) ocs).length = other.size_ := by
        simp [chainCells_length hocs]
      simp only [List.map_nil, List.append_nil] at hvals₃
      rw [← hlen2, List.take_length] at hvals₃
      exact hvals₃
    refine ⟨⟨default, tsd₃.next_node⟩, tcs₃, slookA, ?_, hvals₄, hfresh₄⟩
    show chainCells (swap m₃ ⟨m.next, 0⟩ ⟨m.next + 1, 0 + other.size_⟩).1
      tsd₃.next_node other.size_ = some tcs₃
    have hchain₄ : chainCells m₃ tsd₃.next_node other.size_ = some tcs₃ := by
      rw [show (0 : Nat) + other.size_ = other.size_ from by omega] at hchain₃
      exact hchain₃
    refine chainCells_congr hchain₄ ?_
    intro c hc
    have hge := hfresh₄ c hc
    rw [sframe c.1 (by show c.1 ≠ m.next; omega) (by show c.1 ≠ m.next + 1; omega)]

/-- Specification of `operator=` between two distinct lists with disjoint
storage: the target ends up holding `rhs`'s value sequence in freshly
allocated nodes, its old chain is released, and `rhs` is untouched. -/
theorem opAssign_spec [Inhabited α] {m : Heap α} {lhs rhs : SLL}
    {lsd rsd : Node α} {lcs rcs : List (Nat × Node α)} {clearFuel : Nat}
    (hg : m.good = true)
    (hl : m.lookup lhs.headAddr = some lsd)
    (hlcs : chainCells m lsd.next_node lhs.size_ = some lcs)
    (hr : m.lookup rhs.headAddr = some rsd)
    (hrcs : chainCells m rsd.next_node rhs.size_ = some rcs)
    (hneq : lhs.headAddr ≠ rhs.headAddr)
    (hds : ∀ c ∈ lcs, c.1 ≠ rhs.headAddr)
    (hds₂ : ∀ c ∈ rcs, c.1 ≠ lhs.headAddr)
    (hdisj : ∀ c ∈ lcs, ∀ c₂ ∈ rcs, c.1 ≠ c₂.1)
    (hfuel : lhs.size_ ≤ clearFuel) :
    ∃ m₆ L₂, opAssign m lhs rhs clearFuel = some (m₆, L₂) ∧
      L₂ = ⟨lhs.headAddr, rhs.size_⟩ ∧ m₆.good = true ∧
      (∃ sd₂ cs₂, m₆.lookup lhs.headAddr = some sd₂ ∧
        chainCells m₆ sd₂.next_node rhs.size_ = some cs₂ ∧
        cs₂.map (fun c => c.2.value) = rcs.map (fun c => c.2.value) ∧
        (∀ c ∈ cs₂, m.next + 2 ≤ c.1)) ∧
      m₆.lookup rhs.headAddr = some rsd ∧
      chainCells m₆ rsd.next_node rhs.size_ = some rcs := by
  have hllt : lhs.headAddr < m.next := Heap.lookup_lt_of_good m _ _ hg hl
  have hrlt : rhs.headAddr < m.next := Heap.lookup_lt_of_good m _ _ hg hr
  have hlcslt : ∀ c ∈ lcs, c.1 < m.next := chainCells_lt_next hg hlcs
  have hrcslt : ∀ c ∈ rcs, c.1 < m.next := chainCells_lt_next hg hrcs
  have hlsent := sentinel_not_in_chain hl hlcs
  obtain ⟨m₄, T, hctor, hT, cgood, cnext, cframe, sd₂, cs₂, csd₂, cchain, cvals,
      cfresh⟩ := copyCtor_spec hg hr hrcs
  subst hT
  -- the original left-hand chain survives the copy
  have hlsd₄ : m₄.lookup lhs.headAddr = some lsd := by
    rw [cframe lhs.headAddr hllt]
    exact hl
  have hlcs₄ : chainCells m₄ lsd.next_node lhs.size_ = some lcs := by
    refine chainCells_congr hlcs ?_
    intro c hc
    exact cframe c.1 (hlcslt c hc)
  -- swap with the temporary copy
  obtain ⟨sg, snext, slookA, slookB, sframe, s21, s22⟩ :=
    swap_spec (A := lhs) (B := ⟨m.next, rhs.size_⟩)
      cgood hlsd₄ csd₂ (by show lhs.headAddr ≠ m.next; omega)
  -- after the swap the temporary holds the old left-hand chain
  have hlcs₅ : chainCells (swap m₄ lhs ⟨m.next, rhs.size_⟩).1 lsd.next_node
      lhs.size_ = some lcs := by
    refine chainCells_congr hlcs₄ ?_
    intro c hc
    refine sframe c.1 (hlsent c hc) ?_
    have := hlcslt c hc
    show c.1 ≠ m.next
    omega
  obtain ⟨m₆, hloop, hg₆, hsd₆, hnext₆, hframe₆⟩ :=
    clearLoop_spec (L := ⟨m.next, lhs.size_⟩) sg slookB hlcs₅ hfuel
  have hstep : opAssign m lhs rhs clearFuel =
      some (m₆, ⟨lhs.headAddr, rhs.size_⟩) := by
    unfold opAssign
    rw [if_neg hneq, hctor]
    show (match dtor (swap m₄ lhs ⟨m.next, rhs.size_⟩).1
        (swap m₄ lhs ⟨m.next, rhs.size_⟩).2.2 clearFuel with
      | none => none
      | some r₃ => some (r₃.1, (swap m₄ lhs ⟨m.next, rhs.size_⟩).2.1)) = _
    rw [s22]
    show (match Clear (swap m₄ lhs ⟨m.next, rhs.size_⟩).1
        ⟨m.next, lhs.size_⟩ clearFuel with
      | none => none
      | some r₃ => some (r₃.1, (swap m₄ lhs ⟨m.next, rhs.size_⟩).2.1)) = _
    unfold Clear
    rw [hloop]
    show some (m₆, (swap m₄ lhs ⟨m.next, rhs.size_⟩).2.1) = _
    rw [s21]
  refine ⟨m₆, ⟨lhs.headAddr, rhs.size_⟩, hstep, rfl, hg₆, ?_, ?_, ?_⟩
  · refine ⟨⟨lsd.value, sd₂.next_node⟩, cs₂, ?_, ?_, cvals, ?_⟩
    · rw [hframe₆ lhs.headAddr (by show lhs.headAddr ≠ m.next; omega)
        (fun c hc => (hlsent c hc).symm)]
      exact slookA
    · refine chainCells_congr cchain ?_
      intro c hc
      have hge := cfresh c hc
      rw [hframe₆ c.1 (by show c.1 ≠ m.next; omega) (fun c₂ hc₂ => by
        have := hlcslt c₂ hc₂
        omega),
        sframe c.1 (by omega) (by show c.1 ≠ m.next; omega)]
    · intro c hc
      exact cfresh c hc
  · rw [hframe₆ rhs.headAddr (by show rhs.headAddr ≠ m.next; omega)
      (fun c hc => fun hh => hds c hc hh.symm),
      sframe rhs.headAddr (fun hh => hneq hh.symm)
        (by show rhs.headAddr ≠ m.next; omega),
      cframe rhs.headAddr hrlt]
    exact hr
  · refine chainCells_congr hrcs ?_
    intro c₂ hc₂
    have hlt := hrcslt c₂ hc₂
    rw [hframe₆ c₂.1 (by show c₂.1 ≠ m.next; omega)
      (fun c hc => fun hh => hdisj c hc c₂ hc₂ hh.symm),
      sframe c₂.1 (hds₂ c₂ hc₂) (by show c₂.1 ≠ m.next; omega),
      cframe c₂.1 hlt]

end SLL


theorem chainCells_ext {m m₂ : Heap α}
    (hext : ∀ b, m₂.lookup b = m.lookup b) :
    ∀ (n : Nat) (a : Iter), chainCells m₂ a n = chainCells m a n := by
  intro n
  induction n with
  | zero => intro a; cases a <;> rfl
  | succ k ih =>
    intro a
    cases a with
    | none => rfl
    | some p =>
      show (m₂.lookup p).bind _ = (m.lookup p).bind _
      rw [hext p]
      cases m.lookup p with
      | none => rfl
      | some nd =>
        show (chainCells m₂ nd.next_node k).map _ = (chainCells m nd.next_node k).map _
        rw [ih nd.next_node]

namespace SLL

theorem toList_ext {m m₂ : Heap α} {L : SLL}
    (hext : ∀ b, m₂.lookup b = m.lookup b) :
    toList m₂ L = toList m L := by
  unfold toList cells
  rw [hext L.headAddr]
  cases m.lookup L.headAddr with
  | none => rfl
  | some sd =>
    show ((chainCells m₂ sd.next_node L.size_).map _ : Option (List α)) = _
    rw [chainCells_ext hext]
    rfl

theorem wf_intro {m : Heap α} {L : SLL} {sd : Node α} {cs : List (Nat × Node α)}
    (hsd : m.lookup L.headAddr = some sd)
    (hcs : chainCells m sd.next_node L.size_ = some cs) : wf m L = true := by
  unfold wf cells
  rw [hsd]
  show (chainCells m sd.next_node L.size_).isSome = true
  rw [hcs]
  rfl

theorem wf_elim {m : Heap α} {L : SLL} (h : wf m L = true) :
    ∃ sd cs, m.lookup L.headAddr = some sd ∧
      chainCells m sd.next_node L.size_ = some cs := by
  unfold wf cells at h
  cases hsd : m.lookup L.headAddr with
  | none => rw [hsd] at h; simp at h
  | some sd =>
    rw [hsd] at h
    cases hcs : chainCells m sd.next_node L.size_ with
    | none =>
      rw [show ((some sd).bind (fun sd => chainCells m sd.next_node L.size_)) =
        chainCells m sd.next_node L.size_ from rfl, hcs] at h
      simp at h
    | some cs => exact ⟨sd, cs, rfl, hcs⟩

theorem toList_eq {m : Heap α} {L : SLL} {sd : Node α} {cs : List (Nat × Node α)}
    (hsd : m.lookup L.headAddr = some sd)
    (hcs : chainCells m sd.next_node L.size_ = some cs) :
    toList m L = some (cs.map (fun c => c.2.value)) := by
  unfold toList cells
  rw [hsd]
  show ((chainCells m sd.next_node L.size_).map _ : Option (List α)) = _
  rw [hcs]
  rfl

theorem toList_elim {m : Heap α} {L : SLL} {l : List α}
    (h : toList m L = some l) :
    ∃ sd cs, m.lookup L.headAddr = some sd ∧
      chainCells m sd.next_node L.size_ = some cs ∧
      l = cs.map (fun c => c.2.value) := by
  unfold toList cells at h
  cases hsd : m.lookup L.headAddr with
  | none => rw [hsd] at h; simp at h
  | some sd =>
    rw [hsd] at h
    cases hcs : chainCells m sd.next_node L.size_ with
    | none =>
      rw [show ((some sd).bind (fun sd => chainCells m sd.next_node L.size_)) =
        chainCells m sd.next_node L.size_ from rfl, hcs] at h
      simp at h
    | some cs =>
      rw [show ((some sd).bind (fun sd => chainCells m sd.next_node L.size_)) =
        chainCells m sd.next_node L.size_ from rfl, hcs] at h
      simp only [Option.map_some', Option.some.injEq] at h
      exact ⟨sd, cs, rfl, hcs, h.symm⟩

theorem sepPair_elim {m : Heap α} {A B : SLL} (h : sepPair m A B = true) :
    ∃ acs bcs, cells m A = some acs ∧ cells m B = some bcs ∧
      A.headAddr ≠ B.headAddr ∧
      (∀ c ∈ acs, c.1 ≠ B.headAddr) ∧
      (∀ c ∈ bcs, c.1 ≠ A.headAddr) ∧
      (∀ c ∈ acs, ∀ c₂ ∈ bcs, c.1 ≠ c₂.1) := by
  unfold sepPair at h
  cases hA : cells m A with
  | none => rw [hA] at h; simp at h
  | some acs =>
    cases hB : cells m B with
    | none => rw [hA, hB] at h; simp at h
    | some bcs =>
      rw [hA, hB] at h
      simp only [Bool.and_eq_true, decide_eq_true_eq, List.all_eq_true] at h
      exact ⟨acs, bcs, rfl, rfl, h.1.1.1, h.1.1.2, h.1.2, h.2⟩

theorem cells_elim {m : Heap α} {L : SLL} {cs : List (Nat × Node α)}
    (h : cells m L = some cs) :
    ∃ sd, m.lookup L.headAddr = some sd ∧
      chainCells m sd.next_node L.size_ = some cs := by
  unfold cells at h
  cases hsd : m.lookup L.headAddr with
  | none => rw [hsd] at h; simp at h
  | some sd =>
    rw [hsd] at h
    exact ⟨sd, rfl, h⟩

end SLL

theorem iterDeref_cellIter {m : Heap α} {a : Iter} {n : Nat}
    {cs : List (Nat × Node α)} (h : chainCells m a n = some cs) (i : Nat) :
    iterDeref m (cellIter cs i) = (cs.map (fun c => c.2.value))[i]? := by
  rw [cellIter_eq]
  cases hc : cs[i]? with
  | none =>
    have hlen : cs.length ≤ i := by
      by_contra hlt
      push_neg at hlt
      rw [List.getElem?_eq_getElem hlt] at hc
      simp at hc
    rw [List.getElem?_eq_none (by simpa using hlen)]
    rfl
  | some c =>
    have hmem : c ∈ cs := List.getElem?_mem hc
    have hlook := chainCells_lookup h hmem
    show iterDeref m (some c.1) = _
    rw [List.getElem?_map, hc]
    show (m.lookup c.1).map (fun nd => nd.value) = _
    rw [hlook]
    rfl

/-- C1: the claim states that dereferencing or advancing an iterator at the
end position fails explicitly (a defined error or exception).  The code of
`BasicIterator::operator*` and `BasicIterator::operator++` performs no
check at all: on the end position of a concretely constructed list
`[1, 2, 3]` (whose `end()` iterator holds `nullptr`, i.e. `none`), both
embedded operators hit the null-pointer dereference modelled by the `none`
result — undefined behaviour, not an explicit failure. -/
theorem c1_end_operations_are_unchecked_null_derefs :
    SLL.endIter (SLL.fromInitList (Heap.empty (α := Nat)) 0 [1, 2, 3]).1
      (SLL.fromInitList (Heap.empty (α := Nat)) 0 [1, 2, 3]).2 = some none ∧
    iterDeref (SLL.fromInitList (Heap.empty (α := Nat)) 0 [1, 2, 3]).1 none =
      (none : Option Nat) ∧
    iterInc (SLL.fromInitList (Heap.empty (α := Nat)) 0 [1, 2, 3]).1 none =
      none := by
  decide

/-- C2: the claim states that `end()` is constant time and does not walk
the node chain.  The embedded loop of `end()` follows exactly one successor
link per element: on the concrete list `[1, 2, 3]` it follows 3, and on
`[1, 2, 3, 4, 5, 6]` it follows 6 — the walk length grows with the list,
contradicting the claim. -/
theorem c2_end_walks_the_whole_chain :
    SLL.endSteps (SLL.fromInitList (Heap.empty (α := Nat)) 0 [1, 2, 3]).1
      (SLL.fromInitList (Heap.empty (α := Nat)) 0 [1, 2, 3]).2 = 3 ∧
    SLL.endSteps (SLL.fromInitList (Heap.empty (α := Nat)) 0
        [1, 2, 3, 4, 5, 6]).1
      (SLL.fromInitList (Heap.empty (α := Nat)) 0 [1, 2, 3, 4, 5, 6]).2 = 6 := by
  decide

/-- C5: the claim states `L <= L` and `L >= L` return true for every list,
including comparing the very same list object with itself.  The `else`
branches of `operator<=` and `operator>=` return `false` when both
references denote the same object: on the concrete one-element list `[42]`
both self-comparisons return `false`, even though the code's own
`operator==` considers the object equal to itself. -/
theorem c5_self_le_ge_return_false :
    SLL.opLe (SLL.fromInitList (Heap.empty (α := Nat)) 0 [42]).1
      (SLL.fromInitList (Heap.empty (α := Nat)) 0 [42]).2
      (SLL.fromInitList (Heap.empty (α := Nat)) 0 [42]).2 5 = some false ∧
    SLL.opGe (SLL.fromInitList (Heap.empty (α := Nat)) 0 [42]).1
      (SLL.fromInitList (Heap.empty (α := Nat)) 0 [42]).2
      (SLL.fromInitList (Heap.empty (α := Nat)) 0 [42]).2 5 = some false ∧
    SLL.opEq (SLL.fromInitList (Heap.empty (α := Nat)) 0 [42]).1
      (SLL.fromInitList (Heap.empty (α := Nat)) 0 [42]).2
      (SLL.fromInitList (Heap.empty (α := Nat)) 0 [42]).2 5 = some true := by
  decide

/-- C3: constructing a list from any finite sequence `S` through the
initializer-list constructor (whatever indeterminate value `g` its
uninitialized `size_` member held) yields a list whose front-to-back value
sequence is exactly `S` and whose `GetSize()` equals the length of `S`. -/
theorem c3_init_list_ctor_yields_sequence [Inhabited α]
    (m : Heap α) (g : Nat) (S : List α) (hg : m.good = true) :
    SLL.toList (SLL.fromInitList m g S).1 (SLL.fromInitList m g S).2 = some S ∧
    ((SLL.fromInitList m g S).2).GetSize = S.length := by
  obtain ⟨hhead, hsize, hgood, hnext, hframe, sd, cs, hsd, hchain, hvals, hfresh⟩ :=
    SLL.fromInitList_spec m g S hg
  constructor
  · have hsd2 : (SLL.fromInitList m g S).1.lookup
        (SLL.fromInitList m g S).2.headAddr = some sd := by
      rw [hhead]
      exact hsd
    have hchain2 : chainCells (SLL.fromInitList m g S).1 sd.next_node
        (SLL.fromInitList m g S).2.size_ = some cs := by
      rw [hsize]
      exact hchain
    rw [SLL.toList_eq hsd2 hchain2, hvals]
  · exact hsize

/-- Witness for C3 at the concrete sequence `[1, 2, 3]` with indeterminate
initial `size_` value `7`, in the empty heap. -/
theorem c3_witness :
    SLL.toList (SLL.fromInitList (Heap.empty (α := Nat)) 7 [1, 2, 3]).1
      (SLL.fromInitList (Heap.empty (α := Nat)) 7 [1, 2, 3]).2 =
      some [1, 2, 3] ∧
    ((SLL.fromInitList (Heap.empty (α := Nat)) 7 [1, 2, 3]).2).GetSize = 3 :=
  c3_init_list_ctor_yields_sequence Heap.empty 7 [1, 2, 3] (by decide)

/-- C10: a default-constructed iterator holds `nullptr`, and on every
well-formed list `end()` computes exactly the null position, so the
default-constructed iterator compares equal (by the embedded `operator==`)
to `end()` of every such list. -/
theorem c10_default_iterator_equals_end (m : Heap α) (L : SLL)
    (hwf : SLL.wf m L = true) :
    SLL.endIter m L = some defaultIter ∧
    (SLL.endIter m L).map (fun e => iterEq defaultIter e) = some true := by
  obtain ⟨sd, cs, hsd, hcs⟩ := SLL.wf_elim hwf
  have h := (SLL.endIter_wf hsd hcs).1
  refine ⟨h, ?_⟩
  rw [h]
  rfl

/-- Witness for C10 on the concrete well-formed list `[1, 2, 3]`. -/
theorem c10_witness :
    SLL.endIter (SLL.fromInitList (Heap.empty (α := Nat)) 0 [1, 2, 3]).1
      (SLL.fromInitList (Heap.empty (α := Nat)) 0 [1, 2, 3]).2 =
      some defaultIter ∧
    (SLL.endIter (SLL.fromInitList (Heap.empty (α := Nat)) 0 [1, 2, 3]).1
      (SLL.fromInitList (Heap.empty (α := Nat)) 0 [1, 2, 3]).2).map
        (fun e => iterEq defaultIter e) = some true :=
  c10_default_iterator_equals_end _ _ (by decide)

/-- C8: `swap` exchanges the two lists' sentinel links and counts while
touching no other heap cell, and performing `swap(A, B)` twice in
succession (through the free function, which calls the member) restores
both list objects, every heap cell, and both value sequences. -/
theorem c8_swap_exchanges_state_and_is_involution (m : Heap α) (A B : SLL)
    (sa sb : Node α) (hg : m.good = true)
    (hA : m.lookup A.headAddr = some sa) (hB : m.lookup B.headAddr = some sb)
    (hAB : A.headAddr ≠ B.headAddr) :
    swapInvolution m A B := by
  obtain ⟨sg, snext, slookA, slookB, sframe, s21, s22⟩ := SLL.swap_spec hg hA hB hAB
  obtain ⟨sg₂, snext₂, slookA₂, slookB₂, sframe₂, s21₂, s22₂⟩ :=
    SLL.swap_spec (m := (SLL.swap m A B).1) (A := ⟨A.headAddr, B.size_⟩)
      (B := ⟨B.headAddr, A.size_⟩) sg slookA slookB hAB
  have hrestore : ∀ b, (SLL.swap (SLL.swap m A B).1 ⟨A.headAddr, B.size_⟩
      ⟨B.headAddr, A.size_⟩).1.lookup b = m.lookup b := by
    intro b
    by_cases hbA : b = A.headAddr
    · subst hbA
      rw [slookA₂, hA]
    · by_cases hbB : b = B.headAddr
      · subst hbB
        rw [slookB₂, hB]
      · rw [sframe₂ b hbA hbB, sframe b hbA hbB]
  refine ⟨sframe, rfl, rfl, ?_, ?_, rfl, rfl, hrestore,
    SLL.toList_ext hrestore, SLL.toList_ext hrestore⟩
  · show SLL.headNext (SLL.swap m A B).1 (⟨A.headAddr, B.size_⟩ : SLL) =
      SLL.headNext m B
    rw [SLL.headNext_eq (L := ⟨A.headAddr, B.size_⟩) slookA, SLL.headNext_eq hB]
  · show SLL.headNext (SLL.swap m A B).1 (⟨B.headAddr, A.size_⟩ : SLL) =
      SLL.headNext m A
    rw [SLL.headNext_eq (L := ⟨B.headAddr, A.size_⟩) slookB, SLL.headNext_eq hA]

/-- Witness for C8 on the concrete lists `[1, 2, 3]` and `[9, 8]` living in
one heap. -/
theorem c8_witness :
    swapInvolution
      (SLL.fromInitList (SLL.fromInitList (Heap.empty (α := Nat)) 0 [1, 2, 3]).1
        0 [9, 8]).1
      (SLL.fromInitList (Heap.empty (α := Nat)) 0 [1, 2, 3]).2
      (SLL.fromInitList (SLL.fromInitList (Heap.empty (α := Nat)) 0 [1, 2, 3]).1
        0 [9, 8]).2 :=
  c8_swap_exchanges_state_and_is_involution _ _ _ ⟨0, some 4⟩ ⟨0, some 8⟩
    (by decide) (by decide) (by decide) (by decide)

/-- C6: for every list and every valid node position `pos` (reached by
`idx ≤ size_` advances from `before_begin`, hence the sentinel or any chain
node), `InsertAfter(pos, value)` inserts exactly one new node holding the
value immediately after `pos` — all other elements keep their order, the
count grows by one — and returns a position at the freshly allocated node,
which dereferences to the value. -/
theorem c6_insert_after_splices_one_value (m : Heap α) (L : SLL) (v : α)
    (idx : Nat) (pos : Iter) (l : List α)
    (hg : m.good = true)
    (htl : SLL.toList m L = some l)
    (hidx : idx ≤ L.size_)
    (hpos : advance m (SLL.before_begin L) idx = some pos) :
    insertAfterSpec m L pos v idx l := by
  obtain ⟨sd, cs, hsd, hcs, hleq⟩ := SLL.toList_elim htl
  have hlen : cs.length = L.size_ := chainCells_length hcs
  have hadv := advance_sentinel hsd hcs idx hidx
  rw [hpos] at hadv
  cases idx with
  | zero =>
    have hpos2 : pos = some L.headAddr := Option.some.inj hadv
    subst hpos2
    obtain ⟨m₂, hins, hg₂, hnext₂, hsd₂, hchain₂, hnew₂, hframe₂⟩ :=
      SLL.InsertAfter_bb_spec v hg hsd hcs
    refine ⟨m₂, ⟨L.headAddr, L.size_ + 1⟩, some m.next, hins, rfl, ?_, ?_, rfl, ?_⟩
    · rw [SLL.toList_eq (L := ⟨L.headAddr, L.size_ + 1⟩) hsd₂ hchain₂]
      simp [hleq]
    · exact SLL.wf_intro (L := ⟨L.headAddr, L.size_ + 1⟩) hsd₂ hchain₂
    · show (m₂.lookup m.next).map (fun nd => nd.value) = some v
      rw [hnew₂]
      rfl
  | succ j =>
    have hj : j < cs.length := by omega
    have hpos2 : pos = some (cs.get ⟨j, hj⟩).1 := by
      have h2 := Option.some.inj hadv
      rw [h2]
      show cellIter cs j = some (cs.get ⟨j, hj⟩).1
      rw [cellIter_eq, List.getElem?_eq_getElem hj]
      rfl
    subst hpos2
    have hsplit : cs = cs.take j ++ cs.get ⟨j, hj⟩ :: cs.drop (j + 1) := by
      conv_lhs => rw [← List.take_append_drop j cs]
      rw [List.drop_eq_getElem_cons hj]
      rfl
    obtain ⟨m₂, hins, hg₂, hnext₂, hsd₂, hchain₂, hnew₂, hframe₂⟩ :=
      SLL.InsertAfter_chain_spec v hg hsd hcs hsplit
    have hTake : l.take (j + 1) =
        (cs.take j).map (fun c => c.2.value) ++ [(cs.get ⟨j, hj⟩).2.value] := by
      rw [hleq, List.take_succ, List.getElem?_map, List.getElem?_eq_getElem hj,
        List.map_take]
      rfl
    have hDrop : l.drop (j + 1) = (cs.drop (j + 1)).map (fun c => c.2.value) := by
      rw [hleq, List.map_drop]
    refine ⟨m₂, ⟨L.headAddr, L.size_ + 1⟩, some m.next, hins, rfl, ?_, ?_, rfl, ?_⟩
    · rw [SLL.toList_eq (L := ⟨L.headAddr, L.size_ + 1⟩) hsd₂ hchain₂, hTake, hDrop]
      simp
    · exact SLL.wf_intro (L := ⟨L.headAddr, L.size_ + 1⟩) hsd₂ hchain₂
    · show (m₂.lookup m.next).map (fun nd => nd.value) = some v
      rw [hnew₂]
      rfl

/-- Witness for C6: inserting `9` after the second element of the concrete
list `[1, 2, 3]` (position reached by two advances from `before_begin`). -/
theorem c6_witness :
    insertAfterSpec (SLL.fromInitList (Heap.empty (α := Nat)) 0 [1, 2, 3]).1
      (SLL.fromInitList (Heap.empty (α := Nat)) 0 [1, 2, 3]).2
      (some 3) 9 2 [1, 2, 3] :=
  c6_insert_after_splices_one_value _ _ 9 2 (some 3) [1, 2, 3]
    (by decide) (by decide) (by decide) (by decide)

/-- C7: for every list and every position `pos` (reached by `idx < size_`
advances from `before_begin`, hence a node with a successor),
`EraseAfter(pos)` removes exactly the node immediately following `pos` —
all other elements keep their order, the count shrinks by one — and
returns the position of the node that followed the removed one (the end
position when there is none), which dereferences to the old element at
index `idx + 1`. -/
theorem c7_erase_after_removes_one_value (m : Heap α) (L : SLL)
    (idx : Nat) (pos : Iter) (l : List α)
    (hg : m.good = true)
    (htl : SLL.toList m L = some l)
    (hidx : idx < L.size_)
    (hpos : advance m (SLL.before_begin L) idx = some pos) :
    eraseAfterSpec m L pos idx l := by
  obtain ⟨sd, cs, hsd, hcs, hleq⟩ := SLL.toList_elim htl
  have hlen : cs.length = L.size_ := chainCells_length hcs
  have hadv := advance_sentinel hsd hcs idx (by omega)
  rw [hpos] at hadv
  cases idx with
  | zero =>
    have hpos2 : pos = some L.headAddr := Option.some.inj hadv
    subst hpos2
    cases cs with
    | nil =>
      simp at hlen
      omega
    | cons c cs₂ =>
      obtain ⟨m₂, hers, hg₂, hnext₂, hsd₂, hchain₂, hret, hframe₂⟩ :=
        SLL.EraseAfter_bb_spec hg hsd hcs
      refine ⟨m₂, ⟨L.headAddr, L.size_ - 1⟩, c.2.next_node, hers, rfl, ?_, ?_, ?_, ?_⟩
      · rw [SLL.toList_eq (L := ⟨L.headAddr, L.size_ - 1⟩) hsd₂ hchain₂]
        simp [hleq]
      · exact SLL.wf_intro (L := ⟨L.headAddr, L.size_ - 1⟩) hsd₂ hchain₂
      · rw [hret, iterDeref_cellIter hchain₂ 0, hleq]
        simp
      · intro h1
        have hl2 := chainCells_length hchain₂
        have hnil : cs₂ = [] := List.eq_nil_of_length_eq_zero (by omega)
        rw [hret, hnil]
        rfl
  | succ j =>
    have hj : j < cs.length := by omega
    have hj2 : j + 1 < cs.length := by omega
    have hpos2 : pos = some (cs.get ⟨j, hj⟩).1 := by
      have h2 := Option.some.inj hadv
      rw [h2]
      show cellIter cs j = some (cs.get ⟨j, hj⟩).1
      rw [cellIter_eq, List.getElem?_eq_getElem hj]
      rfl
    subst hpos2
    have hsplit : cs = cs.take j ++ cs.get ⟨j, hj⟩ ::
        cs.get ⟨j + 1, hj2⟩ :: cs.drop (j + 1 + 1) := by
      conv_lhs => rw [← List.take_append_drop j cs]
      rw [List.drop_eq_getElem_cons hj, List.drop_eq_getElem_cons hj2]
      rfl
    obtain ⟨m₂, hers, hg₂, hnext₂, hsd₂, hchain₂, hret, hframe₂⟩ :=
      SLL.EraseAfter_chain_spec hg hsd hcs hsplit
    have hTake : l.take (j + 1) =
        (cs.take j).map (fun c => c.2.value) ++ [(cs.get ⟨j, hj⟩).2.value] := by
      rw [hleq, List.take_succ, List.getElem?_map, List.getElem?_eq_getElem hj,
        List.map_take]
      rfl
    have hDrop : l.drop (j + 1 + 1) =
        (cs.drop (j + 1 + 1)).map (fun c => c.2.value) := by
      rw [hleq, List.map_drop]
    refine ⟨m₂, ⟨L.headAddr, L.size_ - 1⟩, (cs.get ⟨j + 1, hj2⟩).2.next_node,
      hers, rfl, ?_, ?_, ?_, ?_⟩
    · rw [SLL.toList_eq (L := ⟨L.headAddr, L.size_ - 1⟩) hsd₂ hchain₂, hTake, hDrop]
      simp
    · exact SLL.wf_intro (L := ⟨L.headAddr, L.size_ - 1⟩) hsd₂ hchain₂
    · have hchain₂b : chainCells m₂ sd.next_node (L.size_ - 1) =
          some ((cs.take j ++ [((cs.get ⟨j, hj⟩).1,
            ⟨(cs.get ⟨j, hj⟩).2.value, (cs.get ⟨j + 1, hj2⟩).2.next_node⟩)]) ++
            cs.drop (j + 1 + 1)) := by
        rw [hchain₂, List.append_cons]
      obtain ⟨t, k, -, hpost⟩ := chainCells_suffix hchain₂b
      rw [hret, iterDeref_cellIter hpost 0, hleq]
      simp [List.map_drop, List.getElem?_drop]
    · intro h1
      have hplen : (cs.drop (j + 1 + 1)).length = 0 := by
        rw [List.length_drop]
        omega
      have hnil : cs.drop (j + 1 + 1) = [] := List.eq_nil_of_length_eq_zero hplen
      rw [hret, hnil]
      rfl

/-- Witness for C7: erasing after the first element of the concrete list
`[1, 2, 3]` (position reached by one advance from `before_begin`) removes
the element at index 1. -/
theorem c7_witness :
    eraseAfterSpec (SLL.fromInitList (Heap.empty (α := Nat)) 0 [1, 2, 3]).1
      (SLL.fromInitList (Heap.empty (α := Nat)) 0 [1, 2, 3]).2
      (some 4) 1 [1, 2, 3] :=
  c7_erase_after_removes_one_value _ _ 1 (some 4) [1, 2, 3]
    (by decide) (by decide) (by decide) (by decide)

/-- C4: copy construction produces a list equal to the source (same length,
same values in order, and equal under the embedded `operator==`) with
storage independent of the source — pushing to the front of either list
afterwards leaves the other unchanged — and copy assignment between two
distinct lists likewise makes the target equal to the source, leaves the
source untouched, and yields independent storage: pushing to the front of
the assigned list afterwards leaves the source unchanged and vice versa. -/
theorem c4_copy_equal_and_independent [Inhabited α] [DecidableEq α]
    (m : Heap α) (L lhs rhs : SLL) (v : α) (fuel clearFuel : Nat)
    (hg : m.good = true)
    (hL : SLL.wf m L = true)
    (hfuelL : L.size_ < fuel)
    (hsep : SLL.sepPair m lhs rhs = true)
    (hfuelR : rhs.size_ < fuel)
    (hcf : lhs.size_ ≤ clearFuel) :
    copyIndependent m L v fuel ∧ assignIndependent m lhs rhs v fuel clearFuel := by
  constructor
  · obtain ⟨sd, cs, hsd, hcs⟩ := SLL.wf_elim hL
    obtain ⟨m₂, L₂, hctor, hL₂, cg, cnext, cframe, sd₂, cs₂, csd, cchain, cvals,
        cfresh⟩ := SLL.copyCtor_spec hg hsd hcs
    subst hL₂
    have hslt : L.headAddr < m.next := Heap.lookup_lt_of_good m _ _ hg hsd
    have hcslt : ∀ c ∈ cs, c.1 < m.next := chainCells_lt_next hg hcs
    have hcs2lt : ∀ c ∈ cs₂, c.1 < m₂.next := chainCells_lt_next cg cchain
    have hsd2 : m₂.lookup L.headAddr = some sd := by
      rw [cframe _ hslt]
      exact hsd
    have hcs2 : chainCells m₂ sd.next_node L.size_ = some cs :=
      chainCells_congr hcs (fun c hc => cframe c.1 (hcslt c hc))
    have hcsd : m₂.lookup (SLL.mk m.next L.size_).headAddr = some sd₂ := csd
    have hcchain : chainCells m₂ sd₂.next_node (SLL.mk m.next L.size_).size_ =
        some cs₂ := cchain
    obtain ⟨pp2, ppg, ppnext, ppsd, ppchain, ppframe⟩ :=
      SLL.PushFront_spec (L := ⟨m.next, L.size_⟩) v cg hcsd hcchain
    obtain ⟨qq2, qqg, qqnext, qqsd, qqchain, qqframe⟩ :=
      SLL.PushFront_spec (L := L) v cg hsd2 hcs2
    have hLafterPush : (SLL.PushFront m₂ ⟨m.next, L.size_⟩ v).1.lookup L.headAddr =
        some sd := by
      rw [ppframe L.headAddr (by show L.headAddr ≠ m.next; omega) (by omega)]
      exact hsd2
    have hLchainPush : chainCells (SLL.PushFront m₂ ⟨m.next, L.size_⟩ v).1
        sd.next_node L.size_ = some cs := by
      refine chainCells_congr hcs2 ?_
      intro c hc
      have := hcslt c hc
      rw [ppframe c.1 (by show c.1 ≠ m.next; omega) (by omega)]
    have hL2afterPush : (SLL.PushFront m₂ L v).1.lookup
        (SLL.mk m.next L.size_).headAddr = some sd₂ := by
      rw [qqframe _ (by show m.next ≠ L.headAddr; omega)
        (by show m.next ≠ m₂.next; omega)]
      exact hcsd
    have hL2chainPush : chainCells (SLL.PushFront m₂ L v).1 sd₂.next_node
        L.size_ = some cs₂ := by
      refine chainCells_congr (by exact hcchain) ?_
      intro c hc
      have hlt := hcs2lt c hc
      have hge := cfresh c hc
      rw [qqframe c.1 (by omega) (by omega)]
    refine ⟨m₂, ⟨m.next, L.size_⟩, hctor, ?_, ?_, ?_, rfl, ?_, ?_, ?_, ?_, ?_⟩
    · exact SLL.opEq_true hsd2 hcsd hcs2 hcchain cvals.symm
        (by show L.headAddr ≠ m.next; omega) hfuelL
    · rw [SLL.toList_eq hcsd hcchain, SLL.toList_eq hsd hcs, cvals]
    · rw [SLL.toList_eq hsd2 hcs2, SLL.toList_eq hsd hcs]
    · exact SLL.wf_intro hcsd hcchain
    · rw [SLL.toList_eq hLafterPush hLchainPush, SLL.toList_eq hsd hcs]
    · exact SLL.wf_intro hLafterPush hLchainPush
    · rw [SLL.toList_eq hL2afterPush hL2chainPush, SLL.toList_eq hcsd hcchain]
    · exact SLL.wf_intro hL2afterPush hL2chainPush
  · obtain ⟨acs, bcs, hcA, hcB, hne, hd1, hd2, hd3⟩ := SLL.sepPair_elim hsep
    obtain ⟨lsd, hlsd, hlcs⟩ := SLL.cells_elim hcA
    obtain ⟨rsd, hrsd, hrcs⟩ := SLL.cells_elim hcB
    obtain ⟨m₆, L₂, hassign, hL₂, ag, ⟨sd₂, cs₂, asd, achain, avals, afresh⟩,
        arsd, archain⟩ :=
      SLL.opAssign_spec hg hlsd hlcs hrsd hrcs hne hd1 hd2 hd3 hcf
    subst hL₂
    have hasd : m₆.lookup (SLL.mk lhs.headAddr rhs.size_).headAddr = some sd₂ := asd
    have hachain : chainCells m₆ sd₂.next_node
        (SLL.mk lhs.headAddr rhs.size_).size_ = some cs₂ := achain
    have hrlt : rhs.headAddr < m.next := Heap.lookup_lt_of_good m _ _ hg hrsd
    have hllt₆ : lhs.headAddr < m₆.next := Heap.lookup_lt_of_good m₆ _ _ ag asd
    have hrlt₆ : rhs.headAddr < m₆.next := Heap.lookup_lt_of_good m₆ _ _ ag arsd
    have hbcslt₆ : ∀ c ∈ bcs, c.1 < m₆.next := chainCells_lt_next ag archain
    have hcs₂lt : ∀ c ∈ cs₂, c.1 < m₆.next := chainCells_lt_next ag achain
    obtain ⟨-, -, -, -, -, pframe⟩ :=
      SLL.PushFront_spec (L := ⟨lhs.headAddr, rhs.size_⟩) v ag hasd hachain
    obtain ⟨-, -, -, -, -, qframe⟩ := SLL.PushFront_spec (L := rhs) v ag arsd archain
    have hrsdP : (SLL.PushFront m₆ ⟨lhs.headAddr, rhs.size_⟩ v).1.lookup
        rhs.headAddr = some rsd := by
      rw [pframe rhs.headAddr (fun hh => hne hh.symm) (by omega)]
      exact arsd
    have hrcsP : chainCells (SLL.PushFront m₆ ⟨lhs.headAddr, rhs.size_⟩ v).1
        rsd.next_node rhs.size_ = some bcs := by
      refine chainCells_congr archain ?_
      intro c hc
      have h2 := hbcslt₆ c hc
      exact pframe c.1 (hd2 c hc) (by omega)
    have hasdQ : (SLL.PushFront m₆ rhs v).1.lookup
        (SLL.mk lhs.headAddr rhs.size_).headAddr = some sd₂ := by
      have h := qframe lhs.headAddr hne (by show lhs.headAddr ≠ m₆.next; omega)
      show (SLL.PushFront m₆ rhs v).1.lookup lhs.headAddr = some sd₂
      rw [h]
      exact asd
    have hcs₂Q : chainCells (SLL.PushFront m₆ rhs v).1 sd₂.next_node
        rhs.size_ = some cs₂ := by
      refine chainCells_congr achain ?_
      intro c hc
      have h1 := afresh c hc
      have h2 := hcs₂lt c hc
      exact qframe c.1 (by omega) (by omega)
    refine ⟨m₆, ⟨lhs.headAddr, rhs.size_⟩, hassign, ?_, ?_, ?_, ?_, ?_, ?_, ?_, ?_⟩
    · exact SLL.opEq_true arsd hasd archain hachain avals.symm
        (fun hh => hne hh.symm) hfuelR
    · rw [SLL.toList_eq hasd hachain, SLL.toList_eq hrsd hrcs, avals]
    · rw [SLL.toList_eq arsd archain, SLL.toList_eq hrsd hrcs]
    · exact SLL.wf_intro hasd hachain
    · rw [SLL.toList_eq hrsdP hrcsP, SLL.toList_eq hrsd hrcs]
    · exact SLL.wf_intro hrsdP hrcsP
    · rw [SLL.toList_eq hasdQ hcs₂Q, SLL.toList_eq hasd hachain]
    · exact SLL.wf_intro hasdQ hcs₂Q

/-- Witness for C4: copying the concrete list `[1, 2, 3]` and assigning it
into the two-element list `[9, 8]`, all in one heap. -/
theorem c4_witness :
    copyIndependent
      (SLL.fromInitList (SLL.fromInitList (Heap.empty (α := Nat)) 0 [1, 2, 3]).1
        0 [9, 8]).1
      (SLL.fromInitList (Heap.empty (α := Nat)) 0 [1, 2, 3]).2 7 4 ∧
    assignIndependent
      (SLL.fromInitList (SLL.fromInitList (Heap.empty (α := Nat)) 0 [1, 2, 3]).1
        0 [9, 8]).1
      (SLL.fromInitList (SLL.fromInitList (Heap.empty (α := Nat)) 0 [1, 2, 3]).1
        0 [9, 8]).2
      (SLL.fromInitList (Heap.empty (α := Nat)) 0 [1, 2, 3]).2 7 4 2 :=
  c4_copy_equal_and_independent _ _ _ _ 7 4 2
    (by decide) (by decide) (by decide) (by decide) (by decide) (by decide)

/-- C9: every public operation — default construction, construction from a
value sequence, copy construction, copy assignment, swap (both resulting
objects), push-to-front, insert-after, erase-after, pop-front, clear and
destruction — preserves the structural invariant that walking exactly
`size_` successor links from the sentinel reaches the null terminator, and
the count is zero exactly when the sentinel's link is null. -/
theorem c9_public_ops_preserve_invariant [Inhabited α] (m : Heap α)
    (L B : SLL) (g : Nat) (S : List α) (v : α) (idx jdx : Nat)
    (pos pos₂ : Iter) (fuel : Nat)
    (hg : m.good = true)
    (hsep : SLL.sepPair m L B = true)
    (hidx : idx ≤ L.size_)
    (hpos : advance m (SLL.before_begin L) idx = some pos)
    (hjdx : jdx < L.size_)
    (hpos₂ : advance m (SLL.before_begin L) jdx = some pos₂)
    (hfuel : L.size_ ≤ fuel) :
    C9Inv m L B g S v pos pos₂ fuel := by
  obtain ⟨acs, bcs, hcA, hcB, hne, hd1, hd2, hd3⟩ := SLL.sepPair_elim hsep
  obtain ⟨sd, hsd, hcs⟩ := SLL.cells_elim hcA
  obtain ⟨bsd, hbsd, hbcs⟩ := SLL.cells_elim hcB
  have hlen : acs.length = L.size_ := chainCells_length hcs
  have hsent := sentinel_not_in_chain hsd hcs
  have hbsent := sentinel_not_in_chain hbsd hbcs
  obtain ⟨mc, hloop, -, hsdc, -, -⟩ := SLL.clearLoop_spec hg hsd hcs (Nat.le_refl _)
  have hclear : SLL.Clear m L L.size_ = some (mc, (⟨L.headAddr, 0⟩ : SLL)) := by
    unfold SLL.Clear
    rw [hloop]
    rfl
  have hwfc : SLL.wf mc (⟨L.headAddr, 0⟩ : SLL) = true := by
    have h1 : mc.lookup (SLL.mk L.headAddr 0).headAddr =
        some (⟨sd.value, none⟩ : Node α) := hsdc
    exact SLL.wf_intro h1 rfl
  refine ⟨?_, ?_, ?_, ?_, ?_, ?_, ?_, ?_, ?_, ?_, ?_, ?_, ?_⟩
  · constructor
    · intro h0
      rw [SLL.headNext_eq hsd]
      rw [h0] at hcs
      exact (chainCells_zero_inv hcs).1
    · intro hn
      rw [SLL.headNext_eq hsd] at hn
      by_contra h0
      obtain ⟨k, hk⟩ : ∃ k, L.size_ = k + 1 := ⟨L.size_ - 1, by omega⟩
      rw [hk] at hcs
      obtain ⟨p, nd, cs₂, hstart, -, -, -⟩ := chainCells_succ_inv hcs
      rw [hn] at hstart
      simp at hstart
  · have h1 : (SLL.mkEmpty (α := α) m).1.lookup
        (SLL.mkEmpty (α := α) m).2.headAddr =
        some (⟨default, none⟩ : Node α) := by
      show ((m.alloc (⟨default, none⟩ : Node α)).2).lookup m.next = _
      rw [Heap.lookup_alloc, if_pos rfl]
    exact SLL.wf_intro h1 rfl
  · obtain ⟨h1, h2, -, -, -, fsd, fcs, hfsd, hfcs, -, -⟩ :=
      SLL.fromInitList_spec m g S hg
    have hsd3 : (SLL.fromInitList m g S).1.lookup
        (SLL.fromInitList m g S).2.headAddr = some fsd := by
      rw [h1]
      exact hfsd
    have hcs3 : chainCells (SLL.fromInitList m g S).1 fsd.next_node
        (SLL.fromInitList m g S).2.size_ = some fcs := by
      rw [h2]
      exact hfcs
    exact SLL.wf_intro hsd3 hcs3
  · obtain ⟨m₄, L₂, hctor, hT, -, -, -, sd₂, cs₂, csd, cchain, -, -⟩ :=
      SLL.copyCtor_spec hg hsd hcs
    subst hT
    have h1 : m₄.lookup (SLL.mk m.next L.size_).headAddr = some sd₂ := csd
    have h2 : chainCells m₄ sd₂.next_node (SLL.mk m.next L.size_).size_ =
        some cs₂ := cchain
    exact ⟨(m₄, ⟨m.next, L.size_⟩), hctor, SLL.wf_intro h1 h2⟩
  · obtain ⟨m₆, L₂, hassign, hL₂, -, ⟨sd₂, cs₂, asd, achain, -, -⟩, -, -⟩ :=
      SLL.opAssign_spec hg hsd hcs hbsd hbcs hne hd1 hd2 hd3 hfuel
    subst hL₂
    have h1 : m₆.lookup (SLL.mk L.headAddr B.size_).headAddr = some sd₂ := asd
    have h2 : chainCells m₆ sd₂.next_node (SLL.mk L.headAddr B.size_).size_ =
        some cs₂ := achain
    exact ⟨(m₆, ⟨L.headAddr, B.size_⟩), hassign, SLL.wf_intro h1 h2⟩
  · obtain ⟨-, -, sA, sB, sframe, s1, s2⟩ := SLL.swap_spec hg hsd hbsd hne
    have hbcs₂ : chainCells (SLL.swap m L B).1 bsd.next_node B.size_ =
        some bcs := by
      refine chainCells_congr hbcs ?_
      intro c hc
      exact sframe c.1 (hd2 c hc) (hbsent c hc)
    rw [s1]
    have h1 : (SLL.swap m L B).1.lookup (SLL.mk L.headAddr B.size_).headAddr =
        some (⟨sd.value, bsd.next_node⟩ : Node α) := sA
    exact SLL.wf_intro h1 hbcs₂
  · obtain ⟨-, -, sA, sB, sframe, s1, s2⟩ := SLL.swap_spec hg hsd hbsd hne
    have hacs₂ : chainCells (SLL.swap m L B).1 sd.next_node L.size_ =
        some acs := by
      refine chainCells_congr hcs ?_
      intro c hc
      exact sframe c.1 (hsent c hc) (hd1 c hc)
    rw [s2]
    have h1 : (SLL.swap m L B).1.lookup (SLL.mk B.headAddr L.size_).headAddr =
        some (⟨bsd.value, sd.next_node⟩ : Node α) := sB
    exact SLL.wf_intro h1 hacs₂
  · obtain ⟨hL2, -, -, psd, pchain, -⟩ := SLL.PushFront_spec v hg hsd hcs
    rw [hL2]
    have h1 : (SLL.PushFront m L v).1.lookup
        (SLL.mk L.headAddr (L.size_ + 1)).headAddr =
        some (⟨sd.value, some m.next⟩ : Node α) := psd
    have h2 : chainCells (SLL.PushFront m L v).1
        (Node.next_node ⟨sd.value, some m.next⟩)
        (SLL.mk L.headAddr (L.size_ + 1)).size_ =
        some ((m.next, ⟨v, sd.next_node⟩) :: acs) := pchain
    exact SLL.wf_intro h1 h2
  · have hadv := advance_sentinel hsd hcs idx hidx
    rw [hpos] at hadv
    cases idx with
    | zero =>
      have hp2 : pos = some L.headAddr := Option.some.inj hadv
      subst hp2
      obtain ⟨m₂, hins, -, -, hsd₂, hchain₂, -, -⟩ :=
        SLL.InsertAfter_bb_spec v hg hsd hcs
      exact ⟨(m₂, ⟨L.headAddr, L.size_ + 1⟩, some m.next), hins,
        SLL.wf_intro (L := ⟨L.headAddr, L.size_ + 1⟩) hsd₂ hchain₂⟩
    | succ j =>
      have hj : j < acs.length := by omega
      have hp2 : pos = some (acs.get ⟨j, hj⟩).1 := by
        have h2 := Option.some.inj hadv
        rw [h2]
        show cellIter acs j = some (acs.get ⟨j, hj⟩).1
        rw [cellIter_eq, List.getElem?_eq_getElem hj]
        rfl
      subst hp2
      have hsplit : acs = acs.take j ++ acs.get ⟨j, hj⟩ :: acs.drop (j + 1) := by
        conv_lhs => rw [← List.take_append_drop j acs]
        rw [List.drop_eq_getElem_cons hj]
        rfl
      obtain ⟨m₂, hins, -, -, hsd₂, hchain₂, -, -⟩ :=
        SLL.InsertAfter_chain_spec v hg hsd hcs hsplit
      exact ⟨(m₂, ⟨L.headAddr, L.size_ + 1⟩, some m.next), hins,
        SLL.wf_intro (L := ⟨L.headAddr, L.size_ + 1⟩) hsd₂ hchain₂⟩
  · have hadv := advance_sentinel hsd hcs jdx (by omega)
    rw [hpos₂] at hadv
    cases jdx with
    | zero =>
      have hp2 : pos₂ = some L.headAddr := Option.some.inj hadv
      subst hp2
      cases acs with
      | nil =>
        simp at hlen
        omega
      | cons c cs₂ =>
        obtain ⟨m₂, hers, -, -, hsd₂, hchain₂, -, -⟩ :=
          SLL.EraseAfter_bb_spec hg hsd hcs
        exact ⟨(m₂, ⟨L.headAddr, L.size_ - 1⟩, c.2.next_node), hers,
          SLL.wf_intro (L := ⟨L.headAddr, L.size_ - 1⟩) hsd₂ hchain₂⟩
    | succ j =>
      have hj : j < acs.length := by omega
      have hj2 : j + 1 < acs.length := by omega
      have hp2 : pos₂ = some (acs.get ⟨j, hj⟩).1 := by
        have h2 := Option.some.inj hadv
        rw [h2]
        show cellIter acs j = some (acs.get ⟨j, hj⟩).1
        rw [cellIter_eq, List.getElem?_eq_getElem hj]
        rfl
      subst hp2
      have hsplit : acs = acs.take j ++ acs.get ⟨j, hj⟩ ::
          acs.get ⟨j + 1, hj2⟩ :: acs.drop (j + 1 + 1) := by
        conv_lhs => rw [← List.take_append_drop j acs]
        rw [List.drop_eq_getElem_cons hj, List.drop_eq_getElem_cons hj2]
        rfl
      obtain ⟨m₂, hers, -, -, hsd₂, hchain₂, -, -⟩ :=
        SLL.EraseAfter_chain_spec hg hsd hcs hsplit
      exact ⟨(m₂, ⟨L.headAddr, L.size_ - 1⟩,
        (acs.get ⟨j + 1, hj2⟩).2.next_node), hers,
        SLL.wf_intro (L := ⟨L.headAddr, L.size_ - 1⟩) hsd₂ hchain₂⟩
  · intro hposi
    cases acs with
    | nil =>
      simp at hlen
      omega
    | cons c cs₂ =>
      obtain ⟨m₂, hpop, -, -, hsd₂, hchain₂, -⟩ := SLL.PopFront_spec hg hsd hcs
      exact ⟨(m₂, ⟨L.headAddr, L.size_ - 1⟩), hpop,
        SLL.wf_intro (L := ⟨L.headAddr, L.size_ - 1⟩) hsd₂ hchain₂⟩
  · exact ⟨(mc, ⟨L.headAddr, 0⟩), hclear, hwfc⟩
  · exact ⟨(mc, ⟨L.headAddr, 0⟩), hclear, hwfc⟩

/-- Witness for C9: the invariant bundle holds for the concrete list
`[1, 2, 3]` alongside a second list `[9, 8]` in the same heap, with the
insert position after two advances and the erase position after one. -/
theorem c9_witness :
    C9Inv
      (SLL.fromInitList (SLL.fromInitList (Heap.empty (α := Nat)) 0 [1, 2, 3]).1
        0 [9, 8]).1
      (SLL.fromInitList (Heap.empty (α := Nat)) 0 [1, 2, 3]).2
      (SLL.fromInitList (SLL.fromInitList (Heap.empty (α := Nat)) 0 [1, 2, 3]).1
        0 [9, 8]).2
      5 [7, 7] 6 (some 3) (some 4) 3 :=
  c9_public_ops_preserve_invariant _ _ _ 5 [7, 7] 6 2 1 (some 3) (some 4) 3
    (by decide) (by decide) (by decide) (by decide) (by decide) (by decide)
    (by decide)

end SLLModel
